import Mathlib

set_option autoImplicit false

/-!
Verification development for the qmp poetry-publishing toolchain.

This file gives a shallow embedding, in Lean, of the repository's core data
handling: the JSON-like value model the scripts pass around, the keyword
normalizer and merge engine of `qmp/merge_pending.py`, the fingerprint engine
of `scripts/qcommon.py` (including a concrete SHA-256), the archive apply
helper of `scripts/qcommon.py` / `scripts/qcrear.py`, the keyword payload
reader of `scripts/merge_pending.py`, and the text parser of
`qmp/make_pending_entry.py`.  Theorems at the end settle the specification
claims against these definitions.
-/

namespace QMP

/-- JSON-like Python values as passed around by the scripts (`json.loads`
results).  Numbers are modelled as integers: the repository's data
(weights, dates, text fields) never uses floats.  Objects are association
lists in insertion order, mirroring CPython dict order. -/
inductive J where
  | null : J
  | bool : Bool → J
  | num  : Int → J
  | str  : String → J
  | arr  : List J → J
  | obj  : List (String × J) → J

mutual

/-- Structural equality test on JSON-like values. -/
def jBEq : J → J → Bool
  | .null, .null => true
  | .bool a, .bool b => a == b
  | .num a, .num b => a == b
  | .str a, .str b => a == b
  | .arr xs, .arr ys => jListBEq xs ys
  | .obj xs, .obj ys => kvListBEq xs ys
  | _, _ => false

def jListBEq : List J → List J → Bool
  | [], [] => true
  | x :: xs, y :: ys => jBEq x y && jListBEq xs ys
  | _, _ => false

def kvListBEq : List (String × J) → List (String × J) → Bool
  | [], [] => true
  | (k1, v1) :: xs, (k2, v2) :: ys => k1 == k2 && jBEq v1 v2 && kvListBEq xs ys
  | _, _ => false

end

def jBEq_iff_aux :
    ∀ n : Nat,
      (∀ a b : J, sizeOf a ≤ n → (jBEq a b = true ↔ a = b)) ∧
      (∀ xs ys : List J, sizeOf xs ≤ n → (jListBEq xs ys = true ↔ xs = ys)) ∧
      (∀ xs ys : List (String × J), sizeOf xs ≤ n → (kvListBEq xs ys = true ↔ xs = ys)) := by
  intro n
  induction n with
  | zero =>
      refine ⟨fun a b h => absurd h ?_, fun xs ys h => absurd h ?_, fun xs ys h => absurd h ?_⟩
      · cases a <;> simp
      · cases xs <;> simp
      · cases xs <;> simp
  | succ n ih =>
      obtain ⟨ihJ, ihL, ihK⟩ := ih
      refine ⟨fun a b h => ?_, fun xs ys h => ?_, fun xs ys h => ?_⟩
      · cases a <;> cases b <;> simp only [jBEq] <;>
          first
          | (rename_i xs ys
             first
             | exact (ihL xs ys (by simp at h; omega)).trans (by simp)
             | exact (ihK xs ys (by simp at h; omega)).trans (by simp))
          | simp
      · cases xs with
        | nil => cases ys <;> simp [jListBEq]
        | cons x xs =>
            cases ys with
            | nil => simp [jListBEq]
            | cons y ys =>
                have h1 : sizeOf x ≤ n := by simp at h; omega
                have h2 : sizeOf xs ≤ n := by simp at h; omega
                simp [jListBEq, ihJ x y h1, ihL xs ys h2]
      · cases xs with
        | nil => cases ys <;> simp [kvListBEq]
        | cons x xs =>
            cases ys with
            | nil => cases x; simp [kvListBEq]
            | cons y ys =>
                obtain ⟨k1, v1⟩ := x
                obtain ⟨k2, v2⟩ := y
                have h1 : sizeOf v1 ≤ n := by simp at h; omega
                have h2 : sizeOf xs ≤ n := by simp at h; omega
                simp [kvListBEq, ihJ v1 v2 h1, ihK xs ys h2, and_assoc]

def jBEq_iff (a b : J) : jBEq a b = true ↔ a = b :=
  (jBEq_iff_aux (sizeOf a)).1 a b le_rfl

instance : DecidableEq J := fun a b => decidable_of_iff _ (jBEq_iff a b)

/-- A Python dict with string keys (insertion-ordered, unique keys). -/
abbrev Dict := List (String × J)

/-- `d[k] = v` on an insertion-ordered dict: replace in place if the key
exists, else append (CPython semantics). -/
def setKV (kvs : Dict) (k : String) (v : J) : Dict :=
  match kvs with
  | [] => [(k, v)]
  | (k0, v0) :: rest =>
      if k0 = k then (k0, v) :: rest else (k0, v0) :: setKV rest k v

/-- `d.get(k)`: first binding of the key (dicts keep keys unique). -/
def pyGet (kvs : Dict) (k : String) : Option J :=
  kvs.lookup k

/-- `d.pop(k, None)`: dict without the key. -/
def delKV (kvs : Dict) (k : String) : Dict :=
  kvs.filter (fun kv => kv.1 ≠ k)

/-- Rebuild a dict from (possibly duplicated) pairs, later bindings
winning, as a Python dict constructor would. -/
def dedupKV (kvs : Dict) : Dict :=
  kvs.foldl (fun acc kv => setKV acc kv.1 kv.2) []

/-- Key order used to canonicalize dicts for equality comparison:
code-point lexicographic, as Python compares strings. -/
def kvRel (a b : String × J) : Prop := a.1.toList ≤ b.1.toList

instance : DecidableRel kvRel := fun a b => by
  unfold kvRel; infer_instance

mutual

/-- Canonical form for Python `==` on JSON-like values: dict entries are
sorted by key (Python dict equality ignores insertion order) and booleans
are folded into numbers (Python has `True == 1` and `False == 0`). -/
def canon : J → J
  | .null => .null
  | .bool b => .num (if b then 1 else 0)
  | .num n => .num n
  | .str s => .str s
  | .arr xs => .arr (canonList xs)
  | .obj kvs => .obj (List.insertionSort kvRel (dedupKV (canonKVs kvs)))

def canonList : List J → List J
  | [] => []
  | x :: xs => canon x :: canonList xs

def canonKVs : List (String × J) → List (String × J)
  | [] => []
  | kv :: rest => (kv.1, canon kv.2) :: canonKVs rest

end

/-- Python `==` on JSON-like values. -/
def pyEq (a b : J) : Prop := canon a = canon b

instance : DecidablePred (fun p : J × J => pyEq p.1 p.2) := fun _ => by
  unfold pyEq; infer_instance

instance (a b : J) : Decidable (pyEq a b) := by
  unfold pyEq; infer_instance

/-- Python `==` on two dicts. -/
def dictEq (a b : Dict) : Prop := pyEq (.obj a) (.obj b)

instance (a b : Dict) : Decidable (dictEq a b) := by
  unfold dictEq; infer_instance

/-- Python truthiness of a JSON-like value (`bool(x)`). -/
def truthy : J → Bool
  | .null => false
  | .bool b => b
  | .num n => n ≠ 0
  | .str s => s ≠ ""
  | .arr xs => !xs.isEmpty
  | .obj kvs => !kvs.isEmpty

/-- Python `str(x)` restricted to the scalar values the scripts actually
stringify (dates and similar).  Containers get a simplified repr that
ignores string escaping; no claim below evaluates it on containers. -/
def pyStr : J → String
  | .null => "None"
  | .bool b => if b then "True" else "False"
  | .num n => toString n
  | .str s => s
  | .arr _ => "[…]"
  | .obj _ => "\x7b…\x7d"

def isAsciiDigit (c : Char) : Bool := '0' ≤ c ∧ c ≤ '9'

/-- Python whitespace (`str.isspace`, `\s`), restricted to the ASCII
controls, the ASCII space, NEL, NBSP and the common Unicode space range;
the repository's texts use only the ASCII ones. -/
def pyWS (c : Char) : Bool :=
  c.toNat ∈ [9, 10, 11, 12, 13, 28, 29, 30, 31, 32, 133, 160,
             0x1680, 0x2028, 0x2029, 0x202F, 0x205F, 0x3000] ∨
  (0x2000 ≤ c.toNat ∧ c.toNat ≤ 0x200A)

/-- `s.strip()` on a list of characters. -/
def pyStripL (cs : List Char) : List Char :=
  ((cs.dropWhile pyWS).reverse.dropWhile pyWS).reverse

/-- `s.rstrip()` on a list of characters. -/
def rstripL (cs : List Char) : List Char :=
  (cs.reverse.dropWhile pyWS).reverse

/-- `int(x)` for the value shapes that can reach a weight field: ints and
bools convert, strings parse as an optionally signed ASCII integer with
surrounding whitespace, everything else raises (`none`). -/
def pyToInt (v : J) : Option Int :=
  match v with
  | .num n => some n
  | .bool b => some (if b then 1 else 0)
  | .str s =>
      let cs := pyStripL s.toList
      let (sign, ds) : Int × List Char :=
        match cs with
        | '-' :: rest => (-1, rest)
        | '+' :: rest => (1, rest)
        | _ => (1, cs)
      if ds ≠ [] ∧ ds.all isAsciiDigit then
        some (sign * (ds.foldl (fun acc c => acc * 10 + (c.toNat - 48)) (0 : Nat) : Nat))
      else
        none
  | _ => none

/-! ### Keyword normalization (`qmp/merge_pending.py`) -/

/-- Unicode canonical decompositions (`unicodedata.normalize("NFKD", ·)`),
restricted to the accented Latin letters appearing in the repository's
Spanish-language data: each maps to its base letter followed by a combining
mark.  Characters outside this table are left undecomposed. -/
def decompTable : List (Char × (Char × Char)) :=
  [('á', ('a', '́')), ('é', ('e', '́')), ('í', ('i', '́')),
   ('ó', ('o', '́')), ('ú', ('u', '́')), ('ü', ('u', '̈')),
   ('ñ', ('n', '̃')), ('ç', ('c', '̧')),
   ('à', ('a', '̀')), ('è', ('e', '̀')), ('ì', ('i', '̀')),
   ('ò', ('o', '̀')), ('ù', ('u', '̀')),
   ('â', ('a', '̂')), ('ê', ('e', '̂')), ('î', ('i', '̂')),
   ('ô', ('o', '̂')), ('û', ('u', '̂')),
   ('ä', ('a', '̈')), ('ë', ('e', '̈')), ('ï', ('i', '̈')),
   ('ö', ('o', '̈')),
   ('Á', ('A', '́')), ('É', ('E', '́')), ('Í', ('I', '́')),
   ('Ó', ('O', '́')), ('Ú', ('U', '́')), ('Ü', ('U', '̈')),
   ('Ñ', ('N', '̃')), ('Ç', ('C', '̧')),
   ('À', ('A', '̀')), ('È', ('E', '̀')), ('Ì', ('I', '̀')),
   ('Ò', ('O', '̀')), ('Ù', ('U', '̀')),
   ('Â', ('A', '̂')), ('Ê', ('E', '̂')), ('Î', ('I', '̂')),
   ('Ô', ('O', '̂')), ('Û', ('U', '̂')),
   ('Ä', ('A', '̈')), ('Ë', ('E', '̈')), ('Ï', ('I', '̈')),
   ('Ö', ('O', '̈'))]

/-- Lowercase mappings (`str.lower`) for the letters the repository's data
uses: the ASCII range plus the accented uppercase letters of
`decompTable`.  Other characters lowercase to themselves. -/
def lowTable : List (Char × Char) :=
  [('A', 'a'), ('B', 'b'), ('C', 'c'), ('D', 'd'), ('E', 'e'), ('F', 'f'),
   ('G', 'g'), ('H', 'h'), ('I', 'i'), ('J', 'j'), ('K', 'k'), ('L', 'l'),
   ('M', 'm'), ('N', 'n'), ('O', 'o'), ('P', 'p'), ('Q', 'q'), ('R', 'r'),
   ('S', 's'), ('T', 't'), ('U', 'u'), ('V', 'v'), ('W', 'w'), ('X', 'x'),
   ('Y', 'y'), ('Z', 'z'),
   ('Á', 'á'), ('É', 'é'), ('Í', 'í'), ('Ó', 'ó'), ('Ú', 'ú'), ('Ü', 'ü'),
   ('Ñ', 'ñ'), ('Ç', 'ç'),
   ('À', 'à'), ('È', 'è'), ('Ì', 'ì'), ('Ò', 'ò'), ('Ù', 'ù'),
   ('Â', 'â'), ('Ê', 'ê'), ('Î', 'î'), ('Ô', 'ô'), ('Û', 'û'),
   ('Ä', 'ä'), ('Ë', 'ë'), ('Ï', 'ï'), ('Ö', 'ö')]

/-- `unicodedata.combining(c) != 0`, restricted to the combining
diacritical marks block that the decompositions above produce. -/
def isCombining (c : Char) : Bool := 0x300 ≤ c.toNat ∧ c.toNat ≤ 0x36F

/-- Decompose one character (NFKD restricted to `decompTable`). -/
def nfkdChar (c : Char) : List Char :=
  match decompTable.lookup c with
  | some (b, m) => [b, m]
  | none => [c]

def nfkd (cs : List Char) : List Char := cs.flatMap nfkdChar

/-- `strip_accents` of `qmp/merge_pending.py`: NFKD-decompose, then drop
combining characters. -/
def strip_accents (s : String) : String :=
  String.mk ((nfkd s.toList).filter (fun c => !isCombining c))

/-- `str.lower` per character, via the table. -/
def pyLowerChar (c : Char) : Char :=
  (lowTable.lookup c).getD c

def pyLower (s : String) : String := String.mk (s.toList.map pyLowerChar)

/-- Scanner for Python `s.split()`: `acc` holds the current word's
characters in reverse. -/
def splitWhiteGo : List Char → List Char → List (List Char)
  | [], acc => if acc = [] then [] else [acc.reverse]
  | c :: rest, acc =>
      if pyWS c then
        if acc = [] then splitWhiteGo rest []
        else acc.reverse :: splitWhiteGo rest []
      else splitWhiteGo rest (c :: acc)

/-- Python `s.split()`: the maximal whitespace-free runs, in order (no
empty words). -/
def pySplitWhite (cs : List Char) : List (List Char) := splitWhiteGo cs []

/-- `norm_word` of `qmp/merge_pending.py`:
`s = strip_accents(s).lower().strip(); s = " ".join(s.split())`. -/
def norm_word (s : String) : String :=
  let s1 := pyStripL (pyLower (strip_accents s)).toList
  String.mk (List.intercalate [' '] (pySplitWhite s1))

/-- `max(1, min(3, weight))`. -/
def clampW (n : Int) : Int := max 1 (min 3 n)

/-- `best[w] = max(best.get(w, 0), weight)` on the insertion-ordered
weight dict. -/
def bestSet : List (String × Int) → String → Int → List (String × Int)
  | [], w, n => [(w, max 0 n)]
  | (w0, v0) :: rest, w, n =>
      if w0 = w then (w0, max v0 n) :: rest else (w0, v0) :: bestSet rest w n

/-- Loop body of `normalize_keywords`: skip non-dict items and items whose
normalized word is empty, clamp the weight, merge by max. -/
def kwItemStep (best : List (String × Int)) (item : J) : List (String × Int) :=
  match item with
  | .obj kvs =>
      let w := norm_word (pyStr ((pyGet kvs "word").getD (.str "")))
      if w = "" then best
      else
        let weight := clampW (((pyGet kvs "weight").getD (.num 1)) |> pyToInt |>.getD 1)
        bestSet best w weight
  | _ => best

/-- Sort relation for the output: Python `key=lambda d: (-d["weight"], d["word"])`. -/
def kwSortRel (a b : String × Int) : Prop :=
  b.2 < a.2 ∨ (a.2 = b.2 ∧ a.1.toList ≤ b.1.toList)

instance : DecidableRel kwSortRel := fun a b => by
  unfold kwSortRel; infer_instance

/-- The raw item list extracted by `normalize_keywords`: `[]` for `None`,
`payload.get("keywords", [])` for a dict, the payload itself otherwise,
and `[]` whenever the result is not a list. -/
def rawKWItems (payload : J) : List J :=
  let raw : J :=
    match payload with
    | .null => .arr []
    | .obj kvs => (pyGet kvs "keywords").getD (.arr [])
    | x => x
  match raw with | .arr l => l | _ => []

/-- `normalize_keywords` of `qmp/merge_pending.py`.  Accepts a bare list,
`{keywords:[...]}` or `{date, keywords:[...]}`; returns the deduplicated
`(word, weight)` list sorted by descending weight then ascending word. -/
def normalize_keywords (payload : J) : List (String × Int) :=
  List.insertionSort kwSortRel ((rawKWItems payload).foldl kwItemStep [])

/-- The `(normalized word, clamped weight)` contribution of one raw item
(`none` for non-dict items and empty normalized words): the per-item part
of `normalize_keywords`' loop. -/
def itemKW (item : J) : Option (String × Int) :=
  match item with
  | .obj kvs =>
      let w := norm_word (pyStr ((pyGet kvs "word").getD (.str "")))
      if w = "" then none
      else some (w, clampW (((pyGet kvs "weight").getD (.num 1)) |> pyToInt |>.getD 1))
  | _ => none

/-- "The maximum weight seen for that word": fold over the contributing
items, keeping the running maximum of the weights carried by `w`. -/
def maxWeightSeen (items : List (String × Int)) (w : String) : Option Int :=
  items.foldl
    (fun a p => if p.1 = w then
      some (match a with | some v => max v p.2 | none => p.2) else a) none

/-- `keywords_equal` of `qmp/merge_pending.py`. -/
def keywords_equal (a b : J) : Bool := normalize_keywords a == normalize_keywords b

/-- Re-embed a normalized keyword list as the JSON the script stores
(`[{"word": w, "weight": n}, ...]`). -/
def kwJson (l : List (String × Int)) : J :=
  .arr (l.map (fun kv => .obj [("word", .str kv.1), ("weight", .num kv.2)]))

/-! ### Keyword payload reader (`scripts/merge_pending.py`) -/

/-- `re.sub(r"\s+", " ", s)`: collapse each whitespace run to one space. -/
def collapseRuns : List Char → List Char
  | [] => []
  | c :: rest =>
      if pyWS c then ' ' :: collapseRuns (rest.dropWhile pyWS)
      else c :: collapseRuns rest
termination_by cs => cs.length
decreasing_by
  all_goals simp_wf
  all_goals have h : (rest.dropWhile pyWS).length ≤ rest.length :=
    (List.dropWhile_sublist _).length_le
  all_goals omega

/-- `normalize_kw` of `scripts/merge_pending.py`:
strip + lower, NFD-filter combining marks, collapse whitespace runs. -/
def normalize_kw (s : String) : String :=
  let s1 := pyLower (String.mk (pyStripL s.toList))
  let s2 := (nfkd s1.toList).filter (fun c => !isCombining c)
  String.mk (collapseRuns s2)

/-- Python `a or b`. -/
def pyOrJ (a b : J) : J := if truthy a then a else b

/-- Loop body of `parse_keywords_payload`: first occurrence of a
normalized word wins, weight folded to `{1,2,3}`. -/
def pkpStep (acc : List (String × Int) × List String) (it : J) :
    List (String × Int) × List String :=
  match it with
  | .obj kvs =>
      let word0 := pyOrJ (pyOrJ ((pyGet kvs "word").getD .null) ((pyGet kvs "k").getD .null)) (.str "")
      let weight0 := pyOrJ (pyOrJ ((pyGet kvs "weight").getD .null) ((pyGet kvs "w").getD .null)) (.num 1)
      let weight1 := (pyToInt weight0).getD 1
      let weight2 : Int := if weight1 ≥ 3 then 3 else if weight1 = 2 then 2 else 1
      let word := normalize_kw (pyStr word0)
      if word = "" ∨ word ∈ acc.2 then acc
      else (acc.1 ++ [(word, weight2)], word :: acc.2)
  | _ => acc

/-- `parse_keywords_payload` of `scripts/merge_pending.py`, modelled after
`json.loads` (the JSON text parsing and the `"keywords": [...]` fragment
wrapping are the stdlib boundary): accept a bare list or a dict with a
`keywords` list, dedupe first-wins, and truncate to 30 items. -/
def parse_keywords_payload (payload : J) : Except String (List (String × Int)) := do
  let kws : List J ←
    match payload with
    | .arr l => pure l
    | .obj kvs =>
        match pyGet kvs "keywords" with
        | some (.arr l) => pure l
        | _ => throw "pending_keywords.txt debe ser JSON"
    | _ => throw "pending_keywords.txt debe ser JSON"
  return (kws.foldl pkpStep ([], [])).1.take 30

/-! ### Fingerprint engine (`scripts/qcommon.py`) -/

/-- `s.replace("\r\n", "\n")`: left-to-right, non-overlapping. -/
def replCRLF : List Char → List Char
  | [] => []
  | '\r' :: '\n' :: rest => '\n' :: replCRLF rest
  | c :: rest => c :: replCRLF rest

/-- `s.replace("\r", "\n")`. -/
def replCR (cs : List Char) : List Char :=
  cs.map (fun c => if c = '\r' then '\n' else c)

/-- `s.split("\n")` (always at least one piece, like Python). -/
def splitNL : List Char → List (List Char)
  | [] => [[]]
  | c :: rest =>
      if c = '\n' then [] :: splitNL rest
      else
        match splitNL rest with
        | l :: ls => (c :: l) :: ls
        | [] => [[c]]

/-- A line that is whitespace-only (`ln.strip() == ""`). -/
def blankL (l : List Char) : Bool := pyStripL l = []

/-- The line list computed by `normalize_text_for_hash`: CRLF→LF, right-trim
each line, drop leading and trailing blank lines. -/
def normLines (s : List Char) : List (List Char) :=
  (((((splitNL (replCR (replCRLF s))).map rstripL).dropWhile blankL).reverse.dropWhile
      blankL).reverse)

/-- `normalize_text_for_hash` of `scripts/qcommon.py`. -/
def normalize_text_for_hash (s : String) : String :=
  String.mk (List.intercalate ['\n'] (normLines s.toList))

/-- The string that `docs_fingerprint` hashes: the three normalized
sections joined by `"\n\n---\n\n"`. -/
def shaPayload (poem poem_citado texto : String) : String :=
  String.intercalate "\n\n---\n\n"
    [normalize_text_for_hash poem, normalize_text_for_hash poem_citado,
     normalize_text_for_hash texto]

/-! SHA-256 (`hashlib.sha256().hexdigest()`), implemented concretely over
byte lists with `Nat` arithmetic mod `2^32`. -/

def w32 (n : Nat) : Nat := n % 4294967296

def rotr32 (x n : Nat) : Nat := w32 ((x >>> n) ||| (x <<< (32 - n)))

def shaBigSigma0 (x : Nat) : Nat := (rotr32 x 2) ^^^ (rotr32 x 13) ^^^ (rotr32 x 22)
def shaBigSigma1 (x : Nat) : Nat := (rotr32 x 6) ^^^ (rotr32 x 11) ^^^ (rotr32 x 25)
def shaSmallSigma0 (x : Nat) : Nat := (rotr32 x 7) ^^^ (rotr32 x 18) ^^^ (x >>> 3)
def shaSmallSigma1 (x : Nat) : Nat := (rotr32 x 17) ^^^ (rotr32 x 19) ^^^ (x >>> 10)
def shaCh (x y z : Nat) : Nat := (x &&& y) ^^^ ((4294967295 ^^^ x) &&& z)
def shaMaj (x y z : Nat) : Nat := (x &&& y) ^^^ (x &&& z) ^^^ (y &&& z)

def shaK : List Nat :=
  [1116352408, 1899447441, 3049323471, 3921009573, 961987163, 1508970993,
   2453635748, 2870763221, 3624381080, 310598401, 607225278, 1426881987,
   1925078388, 2162078206, 2614888103, 3248222580, 3835390401, 4022224774,
   264347078, 604807628, 770255983, 1249150122, 1555081692, 1996064986,
   2554220882, 2821834349, 2952996808, 3210313671, 3336571891, 3584528711,
   113926993, 338241895, 666307205, 773529912, 1294757372, 1396182291,
   1695183700, 1986661051, 2177026350, 2456956037, 2730485921, 2820302411,
   3259730800, 3345764771, 3516065817, 3600352804, 4094571909, 275423344,
   430227734, 506948616, 659060556, 883997877, 958139571, 1322822218,
   1537002063, 1747873779, 1955562222, 2024104815, 2227730452, 2361852424,
   2428436474, 2756734187, 3204031479, 3329325298]

def shaH0 : List Nat :=
  [1779033703, 3144134277, 1013904242, 2773480762,
   1359893119, 2600822924, 528734635, 1541459225]

/-- UTF-8 encoding of one character. -/
def utf8Char (c : Char) : List Nat :=
  let n := c.toNat
  if n < 0x80 then [n]
  else if n < 0x800 then [0xC0 ||| (n >>> 6), 0x80 ||| (n &&& 0x3F)]
  else if n < 0x10000 then
    [0xE0 ||| (n >>> 12), 0x80 ||| ((n >>> 6) &&& 0x3F), 0x80 ||| (n &&& 0x3F)]
  else
    [0xF0 ||| (n >>> 18), 0x80 ||| ((n >>> 12) &&& 0x3F),
     0x80 ||| ((n >>> 6) &&& 0x3F), 0x80 ||| (n &&& 0x3F)]

def utf8Bytes (s : String) : List Nat := s.toList.flatMap utf8Char

/-- SHA-256 message padding to a multiple of 64 bytes. -/
def shaPad (msg : List Nat) : List Nat :=
  let bitLen := msg.length * 8
  let zeros := (64 - (msg.length + 9) % 64) % 64
  msg ++ [0x80] ++ List.replicate zeros 0 ++
    [(bitLen >>> 56) % 256, (bitLen >>> 48) % 256, (bitLen >>> 40) % 256,
     (bitLen >>> 32) % 256, (bitLen >>> 24) % 256, (bitLen >>> 16) % 256,
     (bitLen >>> 8) % 256, bitLen % 256]

/-- Scanner for 64-byte chunking: `cur` holds the current chunk reversed,
`n` the bytes still wanted in it. -/
def chunksGo (cur : List Nat) (n : Nat) : List Nat → List (List Nat)
  | [] => [cur.reverse]
  | b :: rest =>
      if n ≤ 1 then
        (b :: cur).reverse :: (if rest = [] then [] else chunksGo [] 64 rest)
      else chunksGo (b :: cur) (n - 1) rest

def chunks64 (bs : List Nat) : List (List Nat) :=
  if bs = [] then [] else chunksGo [] 64 bs

/-- Big-endian 32-bit words from bytes. -/
def bytesToWords : List Nat → List Nat
  | b0 :: b1 :: b2 :: b3 :: rest =>
      (b0 * 16777216 + b1 * 65536 + b2 * 256 + b3) :: bytesToWords rest
  | _ => []

/-- Extend 16 words to the 64-word message schedule. -/
def shaExtend (w : List Nat) : List Nat :=
  (List.range 48).foldl
    (fun acc i =>
      acc ++ [w32 (acc.getD (i + 16 - 16) 0 + shaSmallSigma0 (acc.getD (i + 16 - 15) 0) +
        acc.getD (i + 16 - 7) 0 + shaSmallSigma1 (acc.getD (i + 16 - 2) 0))])
    w

/-- One round of the compression function. -/
def shaRound (st : List Nat) (kw : Nat × Nat) : List Nat :=
  match st with
  | [a, b, c, d, e, f, g, h] =>
      let t1 := w32 (h + shaBigSigma1 e + shaCh e f g + kw.1 + kw.2)
      let t2 := w32 (shaBigSigma0 a + shaMaj a b c)
      [w32 (t1 + t2), a, b, c, w32 (d + t1), e, f, g]
  | s => s

/-- Process one 64-byte chunk. -/
def shaChunk (h : List Nat) (chunk : List Nat) : List Nat :=
  let w := shaExtend (bytesToWords chunk)
  let st := (shaK.zip w).foldl shaRound h
  (h.zip st).map (fun p => w32 (p.1 + p.2))

def hexChar (n : Nat) : Char :=
  if n < 10 then Char.ofNat (48 + n) else Char.ofNat (87 + n)

def byteHex (b : Nat) : List Char := [hexChar (b / 16), hexChar (b % 16)]

/-- `hashlib.sha256(payload.encode("utf-8")).hexdigest()`. -/
def sha256hex (s : String) : String :=
  let hs := (chunks64 (shaPad (utf8Bytes s))).foldl shaChunk shaH0
  String.mk (hs.flatMap (fun w =>
    byteHex (w >>> 24 % 256) ++ byteHex (w >>> 16 % 256) ++
    byteHex (w >>> 8 % 256) ++ byteHex (w % 256)))

/-- `docs_fingerprint` of `scripts/qcommon.py`. -/
def docs_fingerprint (poem poem_citado texto : String) : String :=
  "sha256:" ++ sha256hex (shaPayload poem poem_citado texto)

/-! ### Archive merge engine (`qmp/merge_pending.py`, `main`) -/

/-- Python `e.get("date") == d` for a dict lookup result (`None == d` is
`False` for the truthy dates compared here). -/
def dEqB (o : Option J) (d : J) : Bool :=
  match o with
  | some v => jBEq (canon v) (canon d)
  | none => false

/-- Entry extraction of `load_archivo`: accept `{"entries": [...]}` or a
bare array, keep only the dict elements, reject any other root. -/
def load_archivo (raw : J) : Except String (List Dict) :=
  let entries : J :=
    match raw with
    | .obj kvs => (pyGet kvs "entries").getD (.arr [])
    | x => x
  match entries with
  | .arr l =>
      .ok (l.filterMap (fun e => match e with | .obj kvs => some kvs | _ => none))
  | _ => .error "archivo.json inválido: 'entries' no es una lista (o el root no es lista)."

/-- The scan loop of `upsert_entry`: replace the first entry with the same
date (in place), else append; also returns the index and whether it
existed. -/
def upsertGo (dateJ : J) (entry : Dict) : List Dict → List Dict × Nat × Bool
  | [] => ([entry], 0, false)
  | e :: rest =>
      if dEqB (pyGet e "date") dateJ then (entry :: rest, 0, true)
      else
        let r := upsertGo dateJ entry rest
        (e :: r.1, r.2.1 + 1, r.2.2)

/-- `upsert_entry` of `qmp/merge_pending.py`; fails when the entry's
`date` is missing or falsy. -/
def upsert_entry (entries : List Dict) (entry : Dict) :
    Except String (List Dict × Nat × Bool) :=
  match pyGet entry "date" with
  | none => .error "Entry inválido: falta 'date'."
  | some d =>
      if truthy d then .ok (upsertGo d entry entries)
      else .error "Entry inválido: falta 'date'."

/-- `without_keywords` of `qmp/merge_pending.py`. -/
def without_keywords (e : Dict) : Dict := delKV e "keywords"

/-- `next((e for e in entries if e.get("date") == date), None)`. -/
def findOld (entries : List Dict) (dateJ : J) : Option Dict :=
  entries.find? (fun e => dEqB (pyGet e "date") dateJ)

/-- The keyword-selection step of `main` (lines 182–199): with
`--apply-keywords`, read the pending payload (enforcing the date only when
the payload is a dict with a truthy `date`); otherwise carry over the old
entry's keywords (empty when the entry is new). -/
def selectKeywords (applyKw : Bool) (pendingKw : Option J) (dateJ : J)
    (oldEntry : Option Dict) : Except String (J × Bool) :=
  if applyKw then
    match pendingKw with
    | none => .error "Falta pending_keywords"
    | some payload =>
        let dateOk : Bool :=
          match payload with
          | .obj kvs =>
              match pyGet kvs "date" with
              | some dj => if truthy dj then pyStr dj = pyStr dateJ else true
              | none => true
          | _ => true
        if dateOk then .ok (kwJson (normalize_keywords payload), true)
        else .error "pending_keywords date mismatch"
  else
    .ok (((oldEntry.map (fun o => (pyGet o "keywords").getD (.arr []))).getD (.arr [])),
      false)

/-- Sort key for `--sort-by-date` (`e.get("date", "")`); non-string dates
would raise `TypeError` in Python and do not occur in the data. -/
def dateKeyStr (e : Dict) : String :=
  match pyGet e "date" with
  | some (.str s) => s
  | _ => ""

def sortEntriesByDate (l : List Dict) : List Dict :=
  List.insertionSort (fun a b => (dateKeyStr a).toList ≤ (dateKeyStr b).toList) l

/-- The status record printed as `STATUS_JSON`. -/
structure MergeStatus where
  dry_run : Bool
  date : J
  exists_before : Bool
  entry_index : Nat
  content_changed : Bool
  keywords_changed : Bool
  applied_keywords : Bool
  archivo_written : Bool
  my_poem_title : J
  my_poem_snippet : J

/-- The merge computation of `main` in `qmp/merge_pending.py`, as a pure
function: `root` is the parsed `archivo.json`, `entry0` the entry built
from the `.txt` by `make_pending_entry.py` (file reads, the subprocess
call and the `pending_entry.json` rewrite are the I/O boundary),
`pendingKw` the parsed pending-keywords file (`none` = file missing).
Returns the new archive root to write plus the status, or the fatal
error. -/
def merge_main (root : J) (entry0 : Dict) (applyKw dryRun sortByDate : Bool)
    (pendingKw : Option J) : Except String (J × MergeStatus) := do
  let entries ← load_archivo root
  let dateJ ←
    match pyGet entry0 "date" with
    | some d =>
        if truthy d then Except.ok d
        else Except.error "pending_entry.json inválido"
    | none => Except.error "pending_entry.json inválido"
  let entry1 := delKV entry0 "sections"
  let oldEntry := findOld entries dateJ
  let sel ← selectKeywords applyKw pendingKw dateJ oldEntry
  let entry2 := setKV entry1 "keywords" sel.1
  if oldEntry = none ∧ ¬ truthy ((pyGet entry2 "keywords").getD .null) then
    throw "Entrada nueva sin keywords. Genera keywords (qk / q --kw) o usa --apply-keywords."
  let content_changed : Bool :=
    match oldEntry with
    | none => true
    | some o => !(jBEq (canon (.obj (without_keywords o))) (canon (.obj (without_keywords entry2))))
  let keywords_changed : Bool :=
    match oldEntry with
    | none => true
    | some o =>
        !(keywords_equal ((pyGet o "keywords").getD (.arr []))
          ((pyGet entry2 "keywords").getD (.arr [])))
  let up ← upsert_entry entries entry2
  let new_entries := if sortByDate then sortEntriesByDate up.1 else up.1
  let out_root : J :=
    match root with
    | .obj kvs => .obj (setKV kvs "entries" (.arr (new_entries.map .obj)))
    | _ => .arr (new_entries.map .obj)
  return (out_root,
    { dry_run := dryRun
      date := dateJ
      exists_before := oldEntry.isSome
      entry_index := up.2.1
      content_changed := content_changed
      keywords_changed := keywords_changed
      applied_keywords := sel.2
      archivo_written := !dryRun
      my_poem_title := pyOrJ ((pyGet entry2 "my_poem_title").getD (.str "")) (.str "")
      my_poem_snippet := pyOrJ ((pyGet entry2 "my_poem_snippet").getD (.str "")) (.str "") })

/-- Contents of the archive file after a `merge_main` run: written only
when the whole merge computation succeeds and `--dry-run` is off. -/
def archive_after (root : J) (entry0 : Dict) (applyKw dryRun sortByDate : Bool)
    (pendingKw : Option J) : J :=
  match merge_main root entry0 applyKw dryRun sortByDate pendingKw with
  | .ok (out, _) => if dryRun then root else out
  | .error _ => root

/-! ### Archive apply helper (`scripts/qcommon.py` and `scripts/qcrear.py`,
`apply_pending_entry_into_archivo`) -/

/-- `apply_pending_entry_into_archivo`: drop any same-date dict entries, append
the pending entry, sort descending by date, and return the value written to
`archivo.json` (always a bare list). -/
def apply_pending_entry_into_archivo (date_str : String) (pending : J)
    (archivoRoot : J) : Except String J := do
  let pendingKvs ←
    match pending with
    | .obj kvs => pure kvs
    | _ => throw "pending_entry.json inválido o fecha no coincide"
  if !(dEqB (pyGet pendingKvs "date") (.str date_str)) then
    throw "pending_entry.json inválido o fecha no coincide"
  let entriesJ : J :=
    match archivoRoot with
    | .obj kvs => (pyGet kvs "entries").getD .null
    | x => x
  let entriesL ←
    match entriesJ with
    | .arr l => pure l
    | _ => throw "archivo.json inválido: raíz no es lista ni \x7b'entries': [...]\x7d"
  let kept := entriesL.filter (fun e =>
    match e with
    | .obj kvs => !(dEqB (pyGet kvs "date") (.str date_str))
    | _ => false)
  let merged := kept ++ [pending]
  let keyOf : J → String := fun e =>
    match e with
    | .obj kvs => dateKeyStr kvs
    | _ => ""
  return .arr (List.insertionSort (fun a b => (keyOf b).toList ≤ (keyOf a).toList) merged)

/-! ### Text parser (`qmp/make_pending_entry.py`) -/

/-- Line-break characters recognized by `str.splitlines`. -/
def isLineBreak (c : Char) : Bool :=
  c.toNat ∈ [10, 11, 12, 13, 28, 29, 30, 133, 0x2028, 0x2029]

/-- Scanner for `str.splitlines()`: `acc` holds the current line reversed;
after a break, nothing more is emitted when the remainder is empty (no
trailing empty line). -/
def splitLinesGo (acc : List Char) : List Char → List (List Char)
  | [] => [acc.reverse]
  | '\r' :: '\n' :: rest2 =>
      acc.reverse :: (if rest2 = [] then [] else splitLinesGo [] rest2)
  | c :: rest =>
      if isLineBreak c then
        acc.reverse :: (if rest = [] then [] else splitLinesGo [] rest)
      else splitLinesGo (c :: acc) rest

/-- Python `str.splitlines()`: no trailing empty line, `""` gives `[]`,
`\r\n` counts as one break. -/
def pySplitlines (cs : List Char) : List (List Char) :=
  if cs = [] then [] else splitLinesGo [] cs

/-- `re.match(r"^\s*([A-Z_]+)\s*:\s*(.*)\s*$", line)`, giving the
(un-aliased) key and the value (which keeps trailing whitespace). -/
def parseMetaLine (line : List Char) : Option (String × String) :=
  let t1 := line.dropWhile pyWS
  let isKeyChar : Char → Bool := fun c => ('A' ≤ c ∧ c ≤ 'Z') ∨ c = '_'
  let key := t1.takeWhile isKeyChar
  if key = [] then none
  else
    match (t1.drop key.length).dropWhile pyWS with
    | ':' :: tail => some (String.mk key, String.mk (tail.dropWhile pyWS))
    | _ => none

/-- `META_ALIASES` of `qmp/make_pending_entry.py`. -/
def META_ALIASES : List (String × String) :=
  [("FECHA", "date"), ("MY_POEM_TITLE", "my_poem_title"), ("POETA", "poet"),
   ("POEM_TITLE", "poem_title"), ("BOOK_TITLE", "book_title")]

/-- Assignment into a string-valued insertion-ordered dict. -/
def setKVStr (kvs : List (String × String)) (k v : String) : List (String × String) :=
  match kvs with
  | [] => [(k, v)]
  | (k0, v0) :: rest =>
      if k0 = k then (k0, v) :: rest else (k0, v0) :: setKVStr rest k v

/-- The metadata loop of `parse_meta_and_body`: stop (consuming) at the
first blank line, stop (not consuming) at the first non-`KEY: value`
line; unrecognized keys are ignored. -/
def metaLoop (acc : List (String × String)) :
    List (List Char) → List (String × String) × List (List Char)
  | [] => (acc, [])
  | line :: rest =>
      if pyStripL line = [] then (acc, rest)
      else
        match parseMetaLine line with
        | none => (acc, line :: rest)
        | some kv =>
            let acc2 :=
              match META_ALIASES.lookup kv.1 with
              | some a => setKVStr acc a kv.2
              | none => acc
            metaLoop acc2 rest

/-- `parse_meta_and_body` of `qmp/make_pending_entry.py`:
metadata plus `"\n".join(lines[i:]).strip()`. -/
def parse_meta_and_body (raw : String) : List (String × String) × List Char :=
  let r := metaLoop [] (pySplitlines raw.toList)
  (r.1, pyStripL (List.intercalate ['\n'] r.2))

/-- A line matching the section-header pattern
`^\s*#\s*(POEMA|POEMA_CITADO|TEXTO)\s*$`. -/
def headerNameOf (line : List Char) : Option String :=
  match line.dropWhile pyWS with
  | '#' :: rest =>
      let name := rstripL (rest.dropWhile pyWS)
      if name = "POEMA".toList then some "POEMA"
      else if name = "POEMA_CITADO".toList then some "POEMA_CITADO"
      else if name = "TEXTO".toList then some "TEXTO"
      else none
  | _ => none

/-- Emit the section being accumulated (lines reversed), stripped. -/
def sectionsFlush (cur : Option (String × List (List Char))) :
    List (String × String) :=
  match cur with
  | none => []
  | some (n, ls) =>
      [(n, String.mk (pyStripL (List.intercalate ['\n'] ls.reverse)))]

/-- Walk the body lines collecting `(header, stripped content)` pairs, in
order of appearance.  This matches the regex `finditer` extraction of
`extract_sections` followed by `.strip()` of each span: a span runs to the
next header line, and the multiline `\s*` slack around headers only moves
whitespace between spans, which stripping erases. -/
def sectionsScan (cur : Option (String × List (List Char))) :
    List (List Char) → List (String × String)
  | [] => sectionsFlush cur
  | line :: rest =>
      match headerNameOf line with
      | some name => sectionsFlush cur ++ sectionsScan (some (name, [])) rest
      | none =>
          match cur with
          | none => sectionsScan none rest
          | some (n, ls) => sectionsScan (some (n, line :: ls)) rest

/-- `extract_sections` of `qmp/make_pending_entry.py` (duplicate headers:
the later occurrence overwrites). -/
def extract_sections (body : List Char) : List (String × String) :=
  (sectionsScan none (splitNL body)).foldl (fun acc kv => setKVStr acc kv.1 kv.2) []

/-- `first_nonempty_line` of `qmp/make_pending_entry.py`. -/
def first_nonempty_line (s : String) : String :=
  match ((pySplitlines s.toList).map pyStripL).filter (fun t => t ≠ []) with
  | t :: _ => String.mk t
  | [] => ""

/-- `snippet_if_no_title` of `qmp/make_pending_entry.py`. -/
def snippet_if_no_title (title : String) (section_text : String) : String :=
  if pyStripL title.toList ≠ [] then "" else first_nonempty_line section_text

/-- `month_from_date`: `d[:7]`. -/
def month_from_date (d : String) : String := String.mk (d.toList.take 7)

/-- `DATE_RE.fullmatch`: `^\d{4}-\d{2}-\d{2}$` (ASCII digits; the data
never uses other Unicode decimal digits). -/
def isDateYMD (s : String) : Bool :=
  match s.toList with
  | [a, b, c, d, h1, e, f, h2, g, h] =>
      isAsciiDigit a && isAsciiDigit b && isAsciiDigit c && isAsciiDigit d &&
      h1 = '-' && isAsciiDigit e && isAsciiDigit f && h2 = '-' &&
      isAsciiDigit g && isAsciiDigit h
  | _ => false

/-- `s.strip()` on a String. -/
def pyStripS (s : String) : String := String.mk (pyStripL s.toList)

/-- `main` of `qmp/make_pending_entry.py` as a pure function of the file's
text and the file name's stem: `none` models the `SystemExit` when neither
the `FECHA:` metadata nor the stem is a valid `YYYY-MM-DD` date; otherwise
the pending-entry dict that gets written. -/
def make_pending_entry (raw : String) (stem : String) : Option Dict :=
  let mb := parse_meta_and_body raw
  let meta := mb.1
  let sections := extract_sections mb.2
  let date :=
    match meta.lookup "date" with
    | some d => if d ≠ "" then d else stem
    | none => stem
  if ¬ isDateYMD date then none
  else
    let secGet : String → String := fun n => (sections.lookup n).getD ""
    let metaGet : String → String := fun k => (meta.lookup k).getD ""
    some
      [("date", .str date),
       ("month", .str (month_from_date date)),
       ("file", .str ("textos/" ++ date ++ ".txt")),
       ("my_poem_title", .str (pyStripS (metaGet "my_poem_title"))),
       ("my_poem_snippet", .str (snippet_if_no_title (metaGet "my_poem_title") (secGet "POEMA"))),
       ("analysis", .obj
         [("poet", .str (pyStripS (metaGet "poet"))),
          ("poem_title", .str (pyStripS (metaGet "poem_title"))),
          ("poem_snippet", .str (snippet_if_no_title (metaGet "poem_title") (secGet "POEMA_CITADO"))),
          ("book_title", .str (pyStripS (metaGet "book_title")))]),
       ("keywords", .arr []),
       ("sections", .obj
         [("POEMA", .str (secGet "POEMA")),
          ("POEMA_CITADO", .str (secGet "POEMA_CITADO")),
          ("TEXTO", .str (secGet "TEXTO"))])]

/-! ### Proof-level definitions -/

/-- The archive root value rebuilt by `main` before writing. -/
def outRoot (root : J) (l : List Dict) : J :=
  match root with
  | .obj kvs => J.obj (setKV kvs "entries" (.arr (l.map .obj)))
  | _ => .arr (l.map .obj)

/-- Two archive entries carry the same date (Python `==` on the two
`e.get("date")` values, `False` when either is missing). -/
def sameDateB (e1 e2 : Dict) : Bool :=
  match pyGet e2 "date" with
  | some d => dEqB (pyGet e1 "date") d
  | none => false

/-- One step of a run of merges: the entry list after a successful
`upsert_entry` (unchanged if the upsert fails). -/
def upsertOk (acc : List Dict) (e : Dict) : List Dict :=
  match upsert_entry acc e with
  | .ok r => r.1
  | .error _ => acc

/-- The archive entry list after a sequence of merges. -/
def mergeSeq (arch : List Dict) (seq : List Dict) : List Dict :=
  seq.foldl upsertOk arch

/-- A character that all three steps of `norm_word` leave alone: no NFKD
decomposition, not a combining mark, and lowercase already. -/
def goodCharB (c : Char) : Bool :=
  (decompTable.lookup c).isNone && !isCombining c && (lowTable.lookup c).isNone

/-- Words and weights of keyword entries under maintenance: normalized
word, non-empty, weight in `{1,2,3}`. -/
def kwGood (p : String × Int) : Prop :=
  norm_word p.1 = p.1 ∧ p.1 ≠ "" ∧ 1 ≤ p.2 ∧ p.2 ≤ 3

/-- Proof measure for sensitivity: the number of non-whitespace characters
of a text.  `normalize_text_for_hash` preserves it, while appending a
non-whitespace character increases it. -/
def cnw (cs : List Char) : Nat := (cs.filter (fun c => !pyWS c)).length

instance : IsTrans (String × Int) kwSortRel := by
  constructor
  intro a b c hab hbc
  unfold kwSortRel at *
  rcases hab with h1 | ⟨h1, h1'⟩ <;> rcases hbc with h2 | ⟨h2, h2'⟩
  · exact Or.inl (lt_trans h2 h1)
  · exact Or.inl (h2 ▸ h1)
  · exact Or.inl (h1 ▸ h2)
  · exact Or.inr ⟨h1.trans h2, le_trans h1' h2'⟩

instance : IsTotal (String × Int) kwSortRel := by
  constructor
  intro a b
  unfold kwSortRel
  rcases lt_trichotomy a.2 b.2 with h | h | h
  · exact Or.inr (Or.inl h)
  · rcases le_total a.1.toList b.1.toList with hle | hle
    · exact Or.inl (Or.inr ⟨h, hle⟩)
    · exact Or.inr (Or.inr ⟨h.symm, hle⟩)
  · exact Or.inl (Or.inl h)

def string_toList_inj (a b : String) (h : a.toList = b.toList) : a = b := by
  cases a; cases b
  exact congrArg String.mk (by simpa [String.toList] using h)

instance : IsAntisymm (String × Int) kwSortRel := by
  constructor
  intro a b hab hba
  unfold kwSortRel at *
  rcases hab with h1 | ⟨h1, h1'⟩ <;> rcases hba with h2 | ⟨h2, h2'⟩
  · exact absurd h1 (lt_asymm h2)
  · exact absurd h1 (by rw [h2]; exact lt_irrefl _)
  · exact absurd h2 (by rw [h1]; exact lt_irrefl _)
  · have hs : a.1 = b.1 := string_toList_inj _ _ (le_antisymm h1' h2')
    exact Prod.ext hs h1

/-! ### Helper lemmas -/

theorem lookup_setKV_self (l : Dict) (k : String) (v : J) :
    (setKV l k v).lookup k = some v := by
  induction l with
  | nil => simp [setKV, List.lookup]
  | cons kv rest ih =>
      obtain ⟨k0, v0⟩ := kv
      by_cases h : k0 = k
      · subst h; simp [setKV, List.lookup]
      · have hne : (k == k0) = false := by
          simp only [beq_eq_false_iff_ne]
          exact fun hh => h hh.symm
        simp [setKV, h, List.lookup, hne, ih]

theorem lookup_setKV_ne (l : Dict) (k k' : String) (v : J) (h : k' ≠ k) :
    (setKV l k v).lookup k' = l.lookup k' := by
  have hne : (k' == k) = false := by
    simp only [beq_eq_false_iff_ne]; exact h
  induction l with
  | nil => simp [setKV, List.lookup, hne]
  | cons kv rest ih =>
      obtain ⟨k0, v0⟩ := kv
      by_cases h0 : k0 = k
      · subst h0
        simp [setKV, List.lookup, hne]
      · simp [setKV, h0, List.lookup, ih]

/-! ### C1: publish gate with atomicity -/

/-- C1: if no archive entry carries the candidate's date and the keyword
list selected for the candidate is empty (falsy), `merge_pending` fails
with a fatal error and the archive file keeps its pre-call contents; in
particular this holds for candidate `{date:"2025-01-01", keywords:[]}`
against the empty archive (see the witness). -/
theorem merge_publish_gate (root : J) (entry0 : Dict)
    (applyKw dryRun sortByDate : Bool) (pendingKw : Option J)
    (es : List Dict) (d : J) (sel : J × Bool)
    (hload : load_archivo root = .ok es)
    (hdate : pyGet entry0 "date" = some d) (htruthy : truthy d = true)
    (hold : findOld es d = none)
    (hsel : selectKeywords applyKw pendingKw d none = .ok sel)
    (hkw : truthy sel.1 = false) :
    (∃ msg, merge_main root entry0 applyKw dryRun sortByDate pendingKw = .error msg) ∧
    archive_after root entry0 applyKw dryRun sortByDate pendingKw = root := by
  have hdate2 : List.lookup "date" entry0 = some d := hdate
  have hmain : merge_main root entry0 applyKw dryRun sortByDate pendingKw =
      .error "Entrada nueva sin keywords. Genera keywords (qk / q --kw) o usa --apply-keywords." := by
    simp [merge_main, hload, hdate2, htruthy, hold, hsel, hkw, lookup_setKV_self, pyGet,
      bind, Except.bind, throw, throwThe, MonadExceptOf.throw]
  refine ⟨⟨_, hmain⟩, ?_⟩
  simp [archive_after, hmain]

/-- Witness for C1 at the spec's concrete scenario: archive `[]`,
candidate `{date:"2025-01-01", keywords:[]}`. -/
theorem merge_publish_gate_witness :
    (∃ msg, merge_main (J.arr []) [("date", J.str "2025-01-01"), ("keywords", J.arr [])]
      false false false none = .error msg) ∧
    archive_after (J.arr []) [("date", J.str "2025-01-01"), ("keywords", J.arr [])]
      false false false none = J.arr [] :=
  merge_publish_gate (J.arr []) [("date", J.str "2025-01-01"), ("keywords", J.arr [])]
    false false false none [] (J.str "2025-01-01") (J.arr [], false)
    rfl rfl (by decide) rfl rfl rfl

theorem lookup_delKV_ne (l : Dict) (k k' : String) (h : k' ≠ k) :
    (delKV l k).lookup k' = l.lookup k' := by
  induction l with
  | nil => simp [delKV]
  | cons kv rest ih =>
      obtain ⟨k0, v0⟩ := kv
      simp only [delKV, List.filter, ne_eq, decide_not] at ih ⊢
      by_cases h0 : k0 = k
      · subst h0
        have hne : (k' == k0) = false := by
          simp only [beq_eq_false_iff_ne]; exact h
        simp [List.lookup, hne, ih]
      · cases hk : k' == k0 <;> simp [List.lookup, hk, h0, ih]

theorem jBEq_refl (a : J) : jBEq a a = true := (jBEq_iff a a).mpr rfl

theorem load_archivo_arr_objs (l : List Dict) :
    load_archivo (J.arr (l.map .obj)) = .ok l := by
  induction l with
  | nil => rfl
  | cons x rest ih =>
      simp only [load_archivo, List.map_cons, List.filterMap_cons] at ih ⊢
      simp only [Except.ok.injEq] at ih
      simp [ih]

/-- Re-reading a root written by `merge_main` yields exactly the entry
list it upserted. -/
theorem load_archivo_out (root : J) (l : List Dict) :
    load_archivo (outRoot root l) = .ok l := by
  have harr := load_archivo_arr_objs l
  simp only [load_archivo] at harr
  cases root <;>
    simpa [outRoot, load_archivo, pyGet, lookup_setKV_self] using harr

theorem findOld_cons (e : Dict) (l : List Dict) (d : J) :
    findOld (e :: l) d =
      if dEqB (pyGet e "date") d then some e else findOld l d := by
  by_cases h : dEqB (pyGet e "date") d = true <;> simp [findOld, List.find?, h]

/-- After an upsert, looking up the upserted date finds the new entry. -/
theorem findOld_upsertGo_self (d : J) (e : Dict) (l : List Dict)
    (he : dEqB (pyGet e "date") d = true) :
    findOld (upsertGo d e l).1 d = some e := by
  induction l with
  | nil => simp [upsertGo, findOld, List.find?, he]
  | cons e0 rest ih =>
      by_cases h0 : dEqB (pyGet e0 "date") d = true
      · simp [upsertGo, h0, findOld, List.find?, he]
      · simp only [upsertGo, h0, if_false, Bool.false_eq_true]
        rw [findOld_cons]
        simp [h0, ih]

/-! ### C4: pending-keywords date mismatch -/

/-- C4 counterexample: with `--apply-keywords`, a pending-keywords record
whose `date` (`""`, the reset placeholder) differs from the candidate's
date `"2025-01-01"` does *not* abort the merge: the merge succeeds (the
check at `merge_pending.py:189` only fires for truthy pending dates). -/
theorem pending_date_empty_no_abort :
    jBEq (J.str "") (J.str "2025-01-01") = false ∧
    (match merge_main
        (J.arr [J.obj [("date", J.str "2025-01-01"),
          ("keywords", J.arr [J.obj [("word", J.str "x"), ("weight", J.num 1)]])]])
        [("date", J.str "2025-01-01")] true false false
        (some (J.obj [("date", J.str ""), ("keywords", J.arr [])])) with
      | .ok _ => true
      | .error _ => false) = true := by
  constructor
  · decide
  · rfl

/-- C4 amended: the mismatch is fatal exactly when the pending record is a
dict carrying a truthy `date`: in that case a `str()`-level difference from
the candidate's date aborts the merge before any write. -/
theorem pending_date_mismatch_fatal (root : J) (entry0 : Dict)
    (dryRun sortByDate : Bool) (pkvs : Dict) (dj d : J) (es : List Dict)
    (hload : load_archivo root = .ok es)
    (hdate : List.lookup "date" entry0 = some d) (htruthy : truthy d = true)
    (hdj : List.lookup "date" pkvs = some dj)
    (hdt : truthy dj = true) (hmm : pyStr dj ≠ pyStr d) :
    (∃ msg, merge_main root entry0 true dryRun sortByDate (some (J.obj pkvs)) = .error msg) ∧
    archive_after root entry0 true dryRun sortByDate (some (J.obj pkvs)) = root := by
  have hsel : ∀ old, selectKeywords true (some (J.obj pkvs)) d old =
      .error "pending_keywords date mismatch" := by
    intro old
    simp [selectKeywords, pyGet, hdj, hdt, hmm]
  have hmain : merge_main root entry0 true dryRun sortByDate (some (J.obj pkvs)) =
      .error "pending_keywords date mismatch" := by
    simp [merge_main, hload, hdate, htruthy, hsel, pyGet, bind, Except.bind]
  exact ⟨⟨_, hmain⟩, by simp [archive_after, hmain]⟩

/-- Witness for C4's amended theorem at a concrete mismatch. -/
theorem pending_date_mismatch_fatal_witness :
    (∃ msg, merge_main (J.arr []) [("date", J.str "2025-01-01"), ("keywords", J.arr [])]
      true false false (some (J.obj [("date", J.str "2024-12-31")])) = .error msg) ∧
    archive_after (J.arr []) [("date", J.str "2025-01-01"), ("keywords", J.arr [])]
      true false false (some (J.obj [("date", J.str "2024-12-31")])) = J.arr [] :=
  pending_date_mismatch_fatal (J.arr [])
    [("date", J.str "2025-01-01"), ("keywords", J.arr [])] false false
    [("date", J.str "2024-12-31")] (J.str "2024-12-31") (J.str "2025-01-01") []
    rfl rfl (by decide) rfl (by decide) (by decide)

/-! ### C5: keyword preservation when not applying -/

/-- C5: merging with `apply_keywords=False` onto an existing date carries
the old entry's keywords unchanged into the merged entry,
`keywords_changed` is `False`, and whenever some non-keyword field differs
(the dicts without their `keywords` compare unequal) `content_changed` is
`True`. -/
theorem merge_keywords_preserved (root : J) (entry0 : Dict) (dryRun : Bool)
    (pendingKw : Option J) (es : List Dict) (d : J) (o : Dict)
    (hload : load_archivo root = .ok es)
    (hdate : List.lookup "date" entry0 = some d) (htruthy : truthy d = true)
    (hold : findOld es d = some o) :
    ∃ out st, merge_main root entry0 false dryRun false pendingKw = .ok (out, st) ∧
      st.applied_keywords = false ∧
      st.keywords_changed = false ∧
      (¬ dictEq (without_keywords o)
          (without_keywords (setKV (delKV entry0 "sections") "keywords"
            ((pyGet o "keywords").getD (.arr [])))) →
        st.content_changed = true) ∧
      ∃ es2 e2, load_archivo out = .ok es2 ∧ findOld es2 d = some e2 ∧
        pyGet e2 "keywords" = some ((pyGet o "keywords").getD (.arr [])) := by
  have hdate2 : List.lookup "date" entry0 = some d := hdate
  set kwOld : J := (pyGet o "keywords").getD (.arr []) with hkwOld
  set entry2 : Dict := setKV (delKV entry0 "sections") "keywords" kwOld with hentry2
  have hsel : selectKeywords false pendingKw d (some o) = .ok (kwOld, false) := by
    simp [selectKeywords]
  have hd2 : List.lookup "date" entry2 = some d := by
    rw [hentry2]
    rw [lookup_setKV_ne _ _ _ _ (by decide)]
    rw [lookup_delKV_ne _ _ _ (by decide)]
    exact hdate2
  have hup : upsert_entry es entry2 = .ok (upsertGo d entry2 es) := by
    simp [upsert_entry, pyGet, hd2, htruthy]
  have hkw2 : List.lookup "keywords" entry2 = some kwOld := by
    rw [hentry2]; exact lookup_setKV_self _ _ _
  have hmain : merge_main root entry0 false dryRun false pendingKw =
      .ok (outRoot root (upsertGo d entry2 es).1,
        { dry_run := dryRun, date := d, exists_before := true,
          entry_index := (upsertGo d entry2 es).2.1,
          content_changed := !(jBEq (canon (.obj (without_keywords o)))
            (canon (.obj (without_keywords entry2)))),
          keywords_changed := !(keywords_equal ((pyGet o "keywords").getD (.arr []))
            ((pyGet entry2 "keywords").getD (.arr []))),
          applied_keywords := false, archivo_written := !dryRun,
          my_poem_title := pyOrJ ((pyGet entry2 "my_poem_title").getD (.str "")) (.str ""),
          my_poem_snippet := pyOrJ ((pyGet entry2 "my_poem_snippet").getD (.str "")) (.str "") }) := by
    simp only [merge_main, hload, hdate2, htruthy, hold, hsel, hup, bind, Except.bind,
      pure, Except.pure, pyGet, Bool.false_eq_true, if_false, Option.isSome_some]
    simp [← hentry2, hkw2]
    cases root <;> rfl
  refine ⟨_, _, hmain, rfl, ?_, ?_, ?_⟩
  · simp only [pyGet, hkw2, keywords_equal, Option.getD_some]
    simp
    rfl
  · intro hne
    simp only [dictEq, pyEq] at hne
    have hf : jBEq (canon (.obj (without_keywords o)))
        (canon (.obj (without_keywords entry2))) = false := by
      cases hj : jBEq (canon (.obj (without_keywords o)))
          (canon (.obj (without_keywords entry2)))
      · rfl
      · exact absurd ((jBEq_iff _ _).mp hj) hne
    simp [hf]
  · refine ⟨(upsertGo d entry2 es).1, entry2, load_archivo_out root _, ?_, ?_⟩
    · exact findOld_upsertGo_self d entry2 es (by simp [pyGet, hd2, jBEq_refl, dEqB])
    · simpa [pyGet] using hkw2

/-- Witness for C5 at the spec's concrete scenario: archive
`[{"date":"2025-01-01","keywords":[{"word":"x","weight":1}],"note":"a"}]`,
same-date candidate with the unrelated field changed. -/
theorem merge_keywords_preserved_witness :
    (∃ out st, merge_main
        (J.arr [J.obj [("date", J.str "2025-01-01"),
          ("keywords", J.arr [J.obj [("word", J.str "x"), ("weight", J.num 1)]]),
          ("note", J.str "a")]])
        [("date", J.str "2025-01-01"), ("note", J.str "b")] false false false none =
        .ok (out, st) ∧
      st.applied_keywords = false ∧
      st.keywords_changed = false ∧
      (¬ dictEq
          (without_keywords [("date", J.str "2025-01-01"),
            ("keywords", J.arr [J.obj [("word", J.str "x"), ("weight", J.num 1)]]),
            ("note", J.str "a")])
          (without_keywords (setKV (delKV [("date", J.str "2025-01-01"), ("note", J.str "b")] "sections") "keywords"
            ((pyGet [("date", J.str "2025-01-01"),
              ("keywords", J.arr [J.obj [("word", J.str "x"), ("weight", J.num 1)]]),
              ("note", J.str "a")] "keywords").getD (.arr [])))) →
        st.content_changed = true) ∧
      ∃ es2 e2, load_archivo out = .ok es2 ∧ findOld es2 (J.str "2025-01-01") = some e2 ∧
        pyGet e2 "keywords" = some ((pyGet [("date", J.str "2025-01-01"),
          ("keywords", J.arr [J.obj [("word", J.str "x"), ("weight", J.num 1)]]),
          ("note", J.str "a")] "keywords").getD (.arr []))) :=
  merge_keywords_preserved
    (J.arr [J.obj [("date", J.str "2025-01-01"),
      ("keywords", J.arr [J.obj [("word", J.str "x"), ("weight", J.num 1)]]),
      ("note", J.str "a")]])
    [("date", J.str "2025-01-01"), ("note", J.str "b")] false none
    [[("date", J.str "2025-01-01"),
      ("keywords", J.arr [J.obj [("word", J.str "x"), ("weight", J.num 1)]]),
      ("note", J.str "a")]]
    (J.str "2025-01-01")
    [("date", J.str "2025-01-01"),
      ("keywords", J.arr [J.obj [("word", J.str "x"), ("weight", J.num 1)]]),
      ("note", J.str "a")]
    rfl rfl (by decide) (by rfl)

/-! ### C2: at-most-one entry per date, last merge wins -/

theorem upsertOk_eq (acc : List Dict) (e : Dict) (de : J)
    (hd : pyGet e "date" = some de) (ht : truthy de = true) :
    upsertOk acc e = (upsertGo de e acc).1 := by
  simp [upsertOk, upsert_entry, hd, ht]

theorem mem_upsertGo (de : J) (e : Dict) (l : List Dict) :
    ∀ x ∈ (upsertGo de e l).1, x ∈ l ∨ x = e := by
  induction l with
  | nil =>
      intro x hx
      simp [upsertGo] at hx
      exact Or.inr hx
  | cons e0 rest ih =>
      intro x hx
      cases h0 : dEqB (pyGet e0 "date") de with
      | true =>
          simp [upsertGo, h0] at hx
          rcases hx with hx | hx
          · exact Or.inr hx
          · exact Or.inl (List.mem_cons_of_mem _ hx)
      | false =>
          simp [upsertGo, h0] at hx
          rcases hx with hx | hx
          · subst hx; exact Or.inl (List.mem_cons_self _ _)
          · rcases ih x hx with h | h
            · exact Or.inl (List.mem_cons_of_mem _ h)
            · exact Or.inr h

/-- Looking up a date canon-equal to the upserted one finds the new entry. -/
theorem findOld_upsertGo_match (de det : J) (e : Dict) (l : List Dict)
    (hd : pyGet e "date" = some de)
    (hm : jBEq (canon de) (canon det) = true) :
    findOld (upsertGo de e l).1 det = some e := by
  have hde : canon de = canon det := (jBEq_iff _ _).mp hm
  have hpe : dEqB (pyGet e "date") det = true := by
    simp [dEqB, hd, hde, jBEq_refl]
  induction l with
  | nil => simp [upsertGo, findOld, List.find?, hpe]
  | cons e0 rest ih =>
      cases h0 : dEqB (pyGet e0 "date") de with
      | true => simp [upsertGo, h0, findOld, List.find?, hpe]
      | false =>
          have h0det : dEqB (pyGet e0 "date") det = false := by
            cases hget : pyGet e0 "date" with
            | none => simp [dEqB]
            | some d0 =>
                cases hj : jBEq (canon d0) (canon det) with
                | false => simp [dEqB, hget, hj]
                | true =>
                    exfalso
                    have h1 : canon d0 = canon det := (jBEq_iff _ _).mp hj
                    have h2 : jBEq (canon d0) (canon de) = true :=
                      (jBEq_iff _ _).mpr (h1.trans hde.symm)
                    simp [dEqB, hget, h2] at h0
          simp only [upsertGo, h0, Bool.false_eq_true, if_false]
          rw [findOld_cons]
          simp [h0det, ih]

/-- Upserting one date leaves lookups of non-equal dates unchanged. -/
theorem findOld_upsertGo_other (de det : J) (e : Dict) (l : List Dict)
    (hd : pyGet e "date" = some de)
    (hm : jBEq (canon de) (canon det) = false) :
    findOld (upsertGo de e l).1 det = findOld l det := by
  have hpe : dEqB (pyGet e "date") det = false := by
    simp [dEqB, hd, hm]
  induction l with
  | nil => simp [upsertGo, findOld, List.find?, hpe]
  | cons e0 rest ih =>
      cases h0 : dEqB (pyGet e0 "date") de with
      | true =>
          have h0det : dEqB (pyGet e0 "date") det = false := by
            cases hget : pyGet e0 "date" with
            | none => simp [dEqB]
            | some d0 =>
                cases hj : jBEq (canon d0) (canon det) with
                | false => simp [dEqB, hget, hj]
                | true =>
                    exfalso
                    have h1 : canon d0 = canon det := (jBEq_iff _ _).mp hj
                    have h2 : canon d0 = canon de := by
                      have h3 := h0
                      simp [dEqB, hget] at h3
                      exact (jBEq_iff _ _).mp h3
                    have h4 : jBEq (canon de) (canon det) = true :=
                      (jBEq_iff _ _).mpr (h2.symm.trans h1)
                    simp [h4] at hm
          simp only [upsertGo, h0, if_true]
          rw [findOld_cons, findOld_cons]
          simp [hpe, h0det]
      | false =>
          simp only [upsertGo, h0, Bool.false_eq_true, if_false]
          rw [findOld_cons, findOld_cons]
          cases h0det : dEqB (pyGet e0 "date") det <;> simp [h0det, ih]

/-- Merging dates that all differ from `det` leaves `det`'s lookup
unchanged. -/
theorem findOld_mergeSeq_untouched (arch : List Dict) (seq : List Dict) (det : J)
    (ht : ∀ e ∈ seq, ∃ de, pyGet e "date" = some de ∧ truthy de = true)
    (hno : ∀ e ∈ seq, dEqB (pyGet e "date") det = false) :
    findOld (mergeSeq arch seq) det = findOld arch det := by
  induction seq generalizing arch with
  | nil => rfl
  | cons e rest ih =>
      obtain ⟨de, hd, htr⟩ := ht e (List.mem_cons_self _ _)
      have hstep : upsertOk arch e = (upsertGo de e arch).1 := upsertOk_eq arch e de hd htr
      have hm : jBEq (canon de) (canon det) = false := by
        have := hno e (List.mem_cons_self _ _)
        simpa [dEqB, hd] using this
      calc findOld (mergeSeq arch (e :: rest)) det
          = findOld (mergeSeq (upsertOk arch e) rest) det := rfl
        _ = findOld (upsertOk arch e) det := by
            exact ih (upsertOk arch e) (fun x hx => ht x (List.mem_cons_of_mem _ hx))
              (fun x hx => hno x (List.mem_cons_of_mem _ hx))
        _ = findOld arch det := by rw [hstep]; exact findOld_upsertGo_other de det e arch hd hm

/-- Last merge wins: after the whole run, looking up any date which some
merged entry carries yields exactly the entry of the last merge with that
date. -/
theorem findOld_mergeSeq_last (arch : List Dict) (seq : List Dict)
    (ht : ∀ e ∈ seq, ∃ de, pyGet e "date" = some de ∧ truthy de = true) :
    ∀ det : J, (∃ e ∈ seq, dEqB (pyGet e "date") det = true) →
      findOld (mergeSeq arch seq) det =
        (seq.filter (fun e' => dEqB (pyGet e' "date") det)).getLast? := by
  induction seq generalizing arch with
  | nil => intro det h; simp at h
  | cons e rest ih =>
      intro det hex
      obtain ⟨de, hd, htr⟩ := ht e (List.mem_cons_self _ _)
      have hstep : upsertOk arch e = (upsertGo de e arch).1 := upsertOk_eq arch e de hd htr
      by_cases hrest : ∃ x ∈ rest, dEqB (pyGet x "date") det = true
      · have hres := ih (upsertOk arch e) (fun x hx => ht x (List.mem_cons_of_mem _ hx)) det hrest
        have hfil : rest.filter (fun e' => dEqB (pyGet e' "date") det) ≠ [] := by
          obtain ⟨x, hx, hpx⟩ := hrest
          intro hnil
          have : x ∈ rest.filter (fun e' => dEqB (pyGet e' "date") det) :=
            List.mem_filter.mpr ⟨hx, hpx⟩
          simp [hnil] at this
        calc findOld (mergeSeq arch (e :: rest)) det
            = (rest.filter (fun e' => dEqB (pyGet e' "date") det)).getLast? := hres
          _ = ((e :: rest).filter (fun e' => dEqB (pyGet e' "date") det)).getLast? := by
              by_cases hpe : dEqB (pyGet e "date") det = true
              · rw [List.filter_cons_of_pos (by simpa using hpe)]
                cases hl : rest.filter (fun e' => dEqB (pyGet e' "date") det) with
                | nil => exact absurd hl hfil
                | cons y ys => exact List.getLast?_cons_cons.symm
              · rw [List.filter_cons_of_neg (by simpa using hpe)]
      · have hpe : dEqB (pyGet e "date") det = true := by
          rcases hex with ⟨x, hx, hpx⟩
          rcases List.mem_cons.mp hx with h | h
          · exact h ▸ hpx
          · exact absurd ⟨x, h, hpx⟩ hrest
        have hm : jBEq (canon de) (canon det) = true := by
          simpa [dEqB, hd] using hpe
        have hnone : ∀ x ∈ rest, dEqB (pyGet x "date") det = false := by
          intro x hx
          cases hpx : dEqB (pyGet x "date") det with
          | false => rfl
          | true => exact absurd ⟨x, hx, hpx⟩ hrest
        have hfil : rest.filter (fun e' => dEqB (pyGet e' "date") det) = [] := by
          apply List.filter_eq_nil_iff.mpr
          intro x hx
          simp [hnone x hx]
        calc findOld (mergeSeq arch (e :: rest)) det
            = findOld (mergeSeq (upsertOk arch e) rest) det := rfl
          _ = findOld (upsertOk arch e) det :=
              findOld_mergeSeq_untouched _ rest det
                (fun x hx => ht x (List.mem_cons_of_mem _ hx)) hnone
          _ = some e := by rw [hstep]; exact findOld_upsertGo_match de det e arch hd hm
          _ = ((e :: rest).filter (fun e' => dEqB (pyGet e' "date") det)).getLast? := by
              rw [List.filter_cons_of_pos (by simpa using hpe), hfil]
              rfl

/-- An upsert preserves date-uniqueness of the archive. -/
theorem upsertGo_pairwise (de : J) (e : Dict) (l : List Dict)
    (hd : pyGet e "date" = some de)
    (hp : l.Pairwise (fun e1 e2 => sameDateB e1 e2 = false)) :
    (upsertGo de e l).1.Pairwise (fun e1 e2 => sameDateB e1 e2 = false) := by
  induction l with
  | nil => simp [upsertGo]
  | cons e0 rest ih =>
      rw [List.pairwise_cons] at hp
      obtain ⟨h01, hrest⟩ := hp
      cases h0 : dEqB (pyGet e0 "date") de with
      | true =>
          obtain ⟨d0, hget0, hj0⟩ : ∃ d0, pyGet e0 "date" = some d0 ∧
              jBEq (canon d0) (canon de) = true := by
            cases hget0 : pyGet e0 "date" with
            | none => simp [dEqB, hget0] at h0
            | some d0 => exact ⟨d0, rfl, by simpa [dEqB, hget0] using h0⟩
          simp only [upsertGo, h0, if_true]
          rw [List.pairwise_cons]
          refine ⟨?_, hrest⟩
          intro x hx
          cases hgx : pyGet x "date" with
          | none => simp [sameDateB, hgx]
          | some dx =>
              cases hjx : jBEq (canon de) (canon dx) with
              | false => simp [sameDateB, hgx, dEqB, hd, hjx]
              | true =>
                  exfalso
                  have h1 : canon de = canon dx := (jBEq_iff _ _).mp hjx
                  have h2 : canon d0 = canon de := (jBEq_iff _ _).mp hj0
                  have h3 : sameDateB e0 x = true := by
                    simp [sameDateB, hgx, dEqB, hget0, (jBEq_iff _ _).mpr (h2.trans h1)]
                  have h4 := h01 x hx
                  rw [h3] at h4
                  exact Bool.true_eq_false.mp h4
      | false =>
          simp only [upsertGo, h0, Bool.false_eq_true, if_false]
          rw [List.pairwise_cons]
          refine ⟨?_, ih hrest⟩
          intro x hx
          rcases mem_upsertGo de e rest x hx with hmem | hxe
          · exact h01 x hmem
          · subst hxe
            simp [sameDateB, hd, h0]

/-- Date-uniqueness is an invariant of the whole merge run. -/
theorem mergeSeq_pairwise (arch : List Dict) (seq : List Dict)
    (ht : ∀ e ∈ seq, ∃ de, pyGet e "date" = some de ∧ truthy de = true)
    (hp : arch.Pairwise (fun e1 e2 => sameDateB e1 e2 = false)) :
    (mergeSeq arch seq).Pairwise (fun e1 e2 => sameDateB e1 e2 = false) := by
  induction seq generalizing arch with
  | nil => exact hp
  | cons e rest ih =>
      obtain ⟨de, hd, htr⟩ := ht e (List.mem_cons_self _ _)
      have hstep : upsertOk arch e = (upsertGo de e arch).1 := upsertOk_eq arch e de hd htr
      have : mergeSeq arch (e :: rest) = mergeSeq (upsertOk arch e) rest := rfl
      rw [this]
      exact ih (upsertOk arch e) (fun x hx => ht x (List.mem_cons_of_mem _ hx))
        (hstep ▸ upsertGo_pairwise de e arch hd hp)

/-- A date-unique archive holds at most one entry per date. -/
theorem countP_le_one_of_pairwise (l : List Dict)
    (hp : l.Pairwise (fun e1 e2 => sameDateB e1 e2 = false)) (det : J) :
    l.countP (fun e' => dEqB (pyGet e' "date") det) ≤ 1 := by
  induction l with
  | nil => simp
  | cons e0 rest ih =>
      rw [List.pairwise_cons] at hp
      obtain ⟨h01, hrest⟩ := hp
      rw [List.countP_cons]
      cases h0 : dEqB (pyGet e0 "date") det with
      | false => simpa [h0] using ih hrest
      | true =>
          obtain ⟨d0, hget0, hj0⟩ : ∃ d0, pyGet e0 "date" = some d0 ∧
              jBEq (canon d0) (canon det) = true := by
            cases hget0 : pyGet e0 "date" with
            | none => simp [dEqB, hget0] at h0
            | some d0 => exact ⟨d0, rfl, by simpa [dEqB, hget0] using h0⟩
          have hzero : rest.countP (fun e' => dEqB (pyGet e' "date") det) = 0 := by
            rw [List.countP_eq_zero]
            intro x hx
            cases hgx : pyGet x "date" with
            | none => simp [dEqB, hgx]
            | some dx =>
                cases hjx : jBEq (canon dx) (canon det) with
                | false => simp [dEqB, hgx, hjx]
                | true =>
                    exfalso
                    have h1 : canon dx = canon det := (jBEq_iff _ _).mp hjx
                    have h2 : canon d0 = canon det := (jBEq_iff _ _).mp hj0
                    have h3 : sameDateB e0 x = true := by
                      simp [sameDateB, hgx, dEqB, hget0,
                        (jBEq_iff _ _).mpr (h2.trans h1.symm)]
                    have h4 := h01 x hx
                    rw [h3] at h4
                    exact Bool.true_eq_false.mp h4
          simp [hzero, h0]

/-- A no-match upsert appends at the end. -/
theorem upsertGo_append (de : J) (e : Dict) (es : List Dict)
    (hnone : findOld es de = none) :
    (upsertGo de e es).1 = es ++ [e] := by
  induction es with
  | nil => simp [upsertGo]
  | cons e0 rest ih =>
      rw [findOld_cons] at hnone
      cases h0 : dEqB (pyGet e0 "date") de with
      | true => simp [h0] at hnone
      | false =>
          simp only [h0, Bool.false_eq_true, if_false] at hnone
          simp [upsertGo, h0, ih hnone]

/-- A matching upsert replaces the first same-date entry in place. -/
theorem upsertGo_replace (de : J) (e : Dict) (l1 : List Dict) (o : Dict)
    (l2 : List Dict)
    (hl1 : ∀ x ∈ l1, dEqB (pyGet x "date") de = false)
    (ho : dEqB (pyGet o "date") de = true) :
    (upsertGo de e (l1 ++ o :: l2)).1 = l1 ++ e :: l2 := by
  induction l1 with
  | nil => simp [upsertGo, ho]
  | cons x l1' ih =>
      have hx := hl1 x (List.mem_cons_self _ _)
      simp only [List.cons_append, upsertGo, hx, Bool.false_eq_true, if_false]
      simp [ih (fun y hy => hl1 y (List.mem_cons_of_mem _ hy))]

/-- C2: starting from an archive with no duplicate dates, any run of
successful merges yields an archive that (a) still has no duplicate dates,
(b) for every date merged during the run holds exactly one entry, namely
the entry of the last merge with that date, and (c) each individual upsert
replaces the first same-date entry in place and otherwise appends. -/
theorem merge_last_wins (arch seq : List Dict)
    (hnd : arch.Pairwise (fun e1 e2 => sameDateB e1 e2 = false))
    (ht : ∀ e ∈ seq, ∃ de, pyGet e "date" = some de ∧ truthy de = true) :
    (mergeSeq arch seq).Pairwise (fun e1 e2 => sameDateB e1 e2 = false) ∧
    (∀ det : J, (∃ e ∈ seq, dEqB (pyGet e "date") det = true) →
      findOld (mergeSeq arch seq) det =
        (seq.filter (fun e' => dEqB (pyGet e' "date") det)).getLast? ∧
      (mergeSeq arch seq).countP (fun e' => dEqB (pyGet e' "date") det) = 1) ∧
    (∀ (es : List Dict) (e : Dict) (de : J),
      pyGet e "date" = some de → truthy de = true →
      upsert_entry es e = .ok (upsertGo de e es) ∧
      (findOld es de = none → (upsertGo de e es).1 = es ++ [e]) ∧
      (∀ l1 o l2, es = l1 ++ o :: l2 →
        (∀ x ∈ l1, dEqB (pyGet x "date") de = false) →
        dEqB (pyGet o "date") de = true →
        (upsertGo de e es).1 = l1 ++ e :: l2)) := by
  have hpair := mergeSeq_pairwise arch seq ht hnd
  refine ⟨hpair, ?_, ?_⟩
  · intro det hex
    have hfind := findOld_mergeSeq_last arch seq ht det hex
    refine ⟨hfind, ?_⟩
    have hle := countP_le_one_of_pairwise (mergeSeq arch seq) hpair det
    obtain ⟨x, hx, hpx⟩ : ∃ x ∈ mergeSeq arch seq,
        dEqB (pyGet x "date") det = true := by
      obtain ⟨el, hel⟩ : ∃ el, findOld (mergeSeq arch seq) det = some el := by
        rw [hfind]
        obtain ⟨y, hy, hpy⟩ := hex
        cases hl : seq.filter (fun e' => dEqB (pyGet e' "date") det) with
        | nil =>
            exfalso
            have : y ∈ seq.filter (fun e' => dEqB (pyGet e' "date") det) :=
              List.mem_filter.mpr ⟨hy, hpy⟩
            simp [hl] at this
        | cons z zs => exact ⟨(z :: zs).getLast (by simp), List.getLast?_eq_getLast _ _⟩
      simp only [findOld] at hel
      have hp := List.find?_some hel
      exact ⟨el, List.mem_of_find?_eq_some hel, by simpa using hp⟩
    have hpos : 0 < (mergeSeq arch seq).countP (fun e' => dEqB (pyGet e' "date") det) :=
      List.countP_pos_iff.mpr ⟨x, hx, hpx⟩
    omega
  · intro es e de hd htr
    refine ⟨by simp [upsert_entry, hd, htr], upsertGo_append de e es, ?_⟩
    intro l1 o l2 heq hl1 ho
    rw [heq]
    exact upsertGo_replace de e l1 o l2 hl1 ho

/-- Witness for C2: two merges with the same date `"2025-01-01"` and one
with `"2025-01-02"`, starting from the empty archive. -/
theorem merge_last_wins_witness :
    ((mergeSeq [] [[("date", J.str "2025-01-01"), ("v", J.num 1)],
        [("date", J.str "2025-01-02")],
        [("date", J.str "2025-01-01"), ("v", J.num 2)]]).Pairwise
      (fun e1 e2 => sameDateB e1 e2 = false) ∧
    (∀ det : J, (∃ e ∈ [[("date", J.str "2025-01-01"), ("v", J.num 1)],
        [("date", J.str "2025-01-02")],
        [("date", J.str "2025-01-01"), ("v", J.num 2)]],
          dEqB (pyGet e "date") det = true) →
      findOld (mergeSeq [] [[("date", J.str "2025-01-01"), ("v", J.num 1)],
        [("date", J.str "2025-01-02")],
        [("date", J.str "2025-01-01"), ("v", J.num 2)]]) det =
        ([[("date", J.str "2025-01-01"), ("v", J.num 1)],
          [("date", J.str "2025-01-02")],
          [("date", J.str "2025-01-01"), ("v", J.num 2)]].filter
            (fun e' => dEqB (pyGet e' "date") det)).getLast? ∧
      (mergeSeq [] [[("date", J.str "2025-01-01"), ("v", J.num 1)],
        [("date", J.str "2025-01-02")],
        [("date", J.str "2025-01-01"), ("v", J.num 2)]]).countP
          (fun e' => dEqB (pyGet e' "date") det) = 1) ∧
    (∀ (es : List Dict) (e : Dict) (de : J),
      pyGet e "date" = some de → truthy de = true →
      upsert_entry es e = .ok (upsertGo de e es) ∧
      (findOld es de = none → (upsertGo de e es).1 = es ++ [e]) ∧
      (∀ l1 o l2, es = l1 ++ o :: l2 →
        (∀ x ∈ l1, dEqB (pyGet x "date") de = false) →
        dEqB (pyGet o "date") de = true →
        (upsertGo de e es).1 = l1 ++ e :: l2))) :=
  merge_last_wins []
    [[("date", J.str "2025-01-01"), ("v", J.num 1)],
     [("date", J.str "2025-01-02")],
     [("date", J.str "2025-01-01"), ("v", J.num 2)]]
    (List.Pairwise.nil)
    (by
      intro e he
      simp only [List.mem_cons, List.not_mem_nil, or_false] at he
      rcases he with h | h | h <;> subst h <;> exact ⟨_, rfl, by decide⟩)

/-! ### C6: keyword max-weight merge -/

theorem kwItemStep_eq (b : List (String × Int)) (item : J) :
    kwItemStep b item =
      match itemKW item with
      | none => b
      | some p => bestSet b p.1 p.2 := by
  cases item <;> simp [kwItemStep, itemKW]
  split <;> rfl

theorem lookup_bestSet_self (acc : List (String × Int)) (w : String) (n : Int) :
    (bestSet acc w n).lookup w =
      some (match acc.lookup w with | some v => max v n | none => max 0 n) := by
  induction acc with
  | nil => simp [bestSet, List.lookup]
  | cons p rest ih =>
      obtain ⟨w0, v0⟩ := p
      by_cases h : w0 = w
      · subst h; simp [bestSet, List.lookup]
      · have hne : (w == w0) = false := by
          simp only [beq_eq_false_iff_ne]; exact fun hh => h hh.symm
        simp [bestSet, h, List.lookup, hne, ih]

theorem lookup_bestSet_ne (acc : List (String × Int)) (w w' : String) (n : Int)
    (h : w' ≠ w) : (bestSet acc w n).lookup w' = acc.lookup w' := by
  have hne : (w' == w) = false := by
    simp only [beq_eq_false_iff_ne]; exact h
  induction acc with
  | nil => simp [bestSet, List.lookup, hne]
  | cons p rest ih =>
      obtain ⟨w0, v0⟩ := p
      by_cases h0 : w0 = w
      · subst h0; simp [bestSet, List.lookup, hne]
      · cases hk : w' == w0 <;> simp [bestSet, h0, List.lookup, hk, ih]

theorem mem_bestSet_keys (acc : List (String × Int)) (w : String) (n : Int) :
    ∀ p ∈ bestSet acc w n, p.1 = w ∨ ∃ q ∈ acc, p.1 = q.1 := by
  induction acc with
  | nil =>
      intro p hp
      simp [bestSet] at hp
      simp [hp]
  | cons q rest ih =>
      obtain ⟨w0, v0⟩ := q
      intro p hp
      by_cases h0 : w0 = w
      · subst h0
        simp [bestSet] at hp
        rcases hp with hp | hp
        · simp [hp]
        · exact Or.inr ⟨p, List.mem_cons_of_mem _ hp, rfl⟩
      · simp [bestSet, h0] at hp
        rcases hp with hp | hp
        · exact Or.inr ⟨(w0, v0), List.mem_cons_self _ _, by simp [hp]⟩
        · rcases ih p hp with h | h
          · exact Or.inl h
          · obtain ⟨q, hq, hq1⟩ := h
            exact Or.inr ⟨q, List.mem_cons_of_mem _ hq, hq1⟩

theorem bestSet_pairwiseKeys (acc : List (String × Int)) (w : String) (n : Int)
    (hp : acc.Pairwise (fun a b => a.1 ≠ b.1)) :
    (bestSet acc w n).Pairwise (fun a b => a.1 ≠ b.1) := by
  induction acc with
  | nil => simp [bestSet]
  | cons q rest ih =>
      obtain ⟨w0, v0⟩ := q
      rw [List.pairwise_cons] at hp
      obtain ⟨h01, hrest⟩ := hp
      by_cases h0 : w0 = w
      · subst h0
        simp only [bestSet, if_pos rfl, if_true]
        rw [List.pairwise_cons]
        exact ⟨h01, hrest⟩
      · simp only [bestSet, if_neg h0]
        rw [List.pairwise_cons]
        refine ⟨?_, ih hrest⟩
        intro p hp
        rcases mem_bestSet_keys rest w n p hp with h | h
        · rw [h]; exact fun hc => h0 hc
        · obtain ⟨q, hq, hq1⟩ := h
          exact hq1 ▸ h01 q hq

theorem foldl_bestSet_pairwiseKeys (items : List (String × Int))
    (acc : List (String × Int)) (hp : acc.Pairwise (fun a b => a.1 ≠ b.1)) :
    (items.foldl (fun b p => bestSet b p.1 p.2) acc).Pairwise
      (fun a b => a.1 ≠ b.1) := by
  induction items generalizing acc with
  | nil => exact hp
  | cons p rest ih => exact ih _ (bestSet_pairwiseKeys acc p.1 p.2 hp)

/-- Folding `bestSet` computes, per word, the running maximum of the
weights seen for it. -/
theorem lookup_foldl_bestSet (items : List (String × Int))
    (acc : List (String × Int)) (w : String)
    (hpos : ∀ p ∈ items, 0 ≤ p.2) :
    (items.foldl (fun b p => bestSet b p.1 p.2) acc).lookup w =
      items.foldl
        (fun a p => if p.1 = w then
          some (match a with | some v => max v p.2 | none => p.2) else a)
        (acc.lookup w) := by
  induction items generalizing acc with
  | nil => rfl
  | cons p rest ih =>
      obtain ⟨w0, n0⟩ := p
      have hpos0 : (0 : Int) ≤ n0 := hpos (w0, n0) (List.mem_cons_self _ _)
      simp only [List.foldl_cons]
      rw [ih _ (fun q hq => hpos q (List.mem_cons_of_mem _ hq))]
      congr 1
      by_cases h : w0 = w
      · subst h
        rw [lookup_bestSet_self]
        simp only [if_pos rfl]
        cases acc.lookup w0 with
        | none => simp [max_eq_right hpos0]
        | some v => rfl
      · rw [lookup_bestSet_ne _ _ _ _ (fun hh => h hh.symm)]
        simp [h]

theorem foldl_kwItemStep_filterMap (items : List J) (acc : List (String × Int)) :
    items.foldl kwItemStep acc =
      (items.filterMap itemKW).foldl (fun b p => bestSet b p.1 p.2) acc := by
  induction items generalizing acc with
  | nil => rfl
  | cons item rest ih =>
      simp only [List.foldl_cons, kwItemStep_eq]
      cases h : itemKW item with
      | none => simp [List.filterMap_cons, h, ih]
      | some p => simp [List.filterMap_cons, h, ih]

theorem itemKW_weight_bounds (item : J) (p : String × Int)
    (h : itemKW item = some p) : 1 ≤ p.2 ∧ p.2 ≤ 3 := by
  cases item <;> simp [itemKW] at h
  obtain ⟨h1, h2⟩ := h
  subst h2
  unfold clampW
  constructor
  · exact le_max_left _ _
  · simp

theorem lookup_eq_none_iff_keys (l : List (String × Int)) (w : String) :
    l.lookup w = none ↔ ∀ v, (w, v) ∉ l := by
  induction l with
  | nil => simp [List.lookup]
  | cons p rest ih =>
      obtain ⟨w0, v0⟩ := p
      cases hk : w == w0 with
      | true =>
          have hw : w = w0 := by simpa using hk
          subst hw
          simp only [List.lookup, hk]
          constructor
          · intro h
            exact absurd h (by simp)
          · intro h
            exact absurd (List.mem_cons_self _ _) (h v0)
      | false =>
          have hne : w ≠ w0 := by simpa using hk
          simp only [List.lookup, hk]
          rw [ih]
          constructor
          · intro h v
            simp only [List.mem_cons, not_or]
            refine ⟨?_, h v⟩
            intro hc
            exact hne (by simpa using congrArg Prod.fst hc)
          · intro h v
            have h2 := h v
            simp only [List.mem_cons, not_or] at h2
            exact h2.2

theorem lookup_eq_some_iff_mem (l : List (String × Int)) (w : String) (v : Int) :
    l.Pairwise (fun a b => a.1 ≠ b.1) →
    (l.lookup w = some v ↔ (w, v) ∈ l) := by
  induction l with
  | nil => simp [List.lookup]
  | cons p rest ih =>
      intro hp
      obtain ⟨w0, v0⟩ := p
      rw [List.pairwise_cons] at hp
      obtain ⟨h01, hrest⟩ := hp
      cases hk : w == w0 with
      | true =>
          have hw : w = w0 := by simpa using hk
          subst hw
          simp only [List.lookup, hk, List.mem_cons]
          constructor
          · intro h
            have hv : v0 = v := by simpa using h
            subst hv
            exact Or.inl rfl
          · rintro (h | h)
            · have hv : v = v0 := by simpa using congrArg Prod.snd h
              simp [hv]
            · exact absurd rfl (h01 (w, v) h)
      | false =>
          have hne : w ≠ w0 := by simpa using hk
          simp only [List.lookup, hk, List.mem_cons]
          rw [ih hrest]
          constructor
          · exact Or.inr
          · rintro (h | h)
            · exact absurd (by simpa using congrArg Prod.fst h) hne
            · exact h

/-- Lookup is stable under permutation for key-unique association lists. -/
theorem lookup_perm_of_pairwiseKeys (l l' : List (String × Int))
    (hperm : l.Perm l') (hp : l.Pairwise (fun a b => a.1 ≠ b.1)) (w : String) :
    l'.lookup w = l.lookup w := by
  have hp2 : l'.Pairwise (fun a b => a.1 ≠ b.1) :=
    (hperm.pairwise_iff (fun h => Ne.symm h)).mp hp
  cases hl : l.lookup w with
  | some v =>
      rw [lookup_eq_some_iff_mem l' w v hp2]
      exact hperm.mem_iff.mp ((lookup_eq_some_iff_mem l w v hp).mp hl)
  | none =>
      rw [lookup_eq_none_iff_keys]
      intro v hv
      have h3 := (lookup_eq_none_iff_keys l w).mp hl v
      exact h3 (hperm.mem_iff.mpr hv)

/-- C6: `normalize_keywords` merges items whose words coincide after
normalization (lower-case, accents stripped, whitespace collapsed),
keeping for each word the maximum weight seen; on
`[{"vacío",1},{"vacío",3}]` it yields exactly `[{"vacio",3}]`. -/
theorem normalize_keywords_max_merge :
    (∀ (payload : J) (w : String),
      (normalize_keywords payload).lookup w =
        maxWeightSeen ((rawKWItems payload).filterMap itemKW) w) ∧
    normalize_keywords
      (J.arr [J.obj [("word", J.str "vacío"), ("weight", J.num 1)],
        J.obj [("word", J.str "vacío"), ("weight", J.num 3)]]) =
      [("vacio", 3)] := by
  constructor
  · intro payload w
    have hfold := foldl_kwItemStep_filterMap (rawKWItems payload) []
    have hpair : ((rawKWItems payload).foldl kwItemStep []).Pairwise
        (fun a b => a.1 ≠ b.1) := by
      rw [hfold]
      exact foldl_bestSet_pairwiseKeys _ [] (by simp)
    have hperm := List.perm_insertionSort kwSortRel
      ((rawKWItems payload).foldl kwItemStep [])
    rw [normalize_keywords]
    rw [lookup_perm_of_pairwiseKeys _ _ hperm.symm hpair w]
    rw [hfold]
    rw [lookup_foldl_bestSet _ [] w ?hpos]
    · rfl
    · intro p hp
      obtain ⟨item, hitem, hik⟩ := List.mem_filterMap.mp hp
      have := itemKW_weight_bounds item p hik
      omega
  · decide

/-! ### C7: keyword normalization idempotence -/

theorem lookup_mem {α β : Type} [BEq α] [LawfulBEq α] (l : List (α × β)) (k : α)
    (v : β) (h : l.lookup k = some v) : (k, v) ∈ l := by
  induction l with
  | nil => simp [List.lookup] at h
  | cons p rest ih =>
      obtain ⟨k0, v0⟩ := p
      cases hk : k == k0 with
      | true =>
          simp only [List.lookup, hk] at h
          have hk2 : k = k0 := by simpa using hk
          have hv : v0 = v := by simpa using h
          subst hk2; subst hv
          exact List.mem_cons_self _ _
      | false =>
          simp only [List.lookup, hk] at h
          exact List.mem_cons_of_mem _ (ih h)

theorem decompTable_marks :
    decompTable.all (fun p => isCombining p.2.2) = true := by decide

theorem decompTable_bases :
    decompTable.all (fun p => goodCharB (pyLowerChar p.2.1)) = true := by decide

theorem lowTable_good :
    lowTable.all (fun p => (decompTable.lookup p.1).isSome || goodCharB p.2) = true := by
  decide

/-- Any character that survives the decompose-and-filter step lowers to a
`norm_word`-stable character. -/
theorem good_pyLower_survivor (c c' : Char)
    (hmem : c' ∈ nfkdChar c) (hnc : isCombining c' = false) :
    goodCharB (pyLowerChar c') = true := by
  unfold nfkdChar at hmem
  cases hdec : decompTable.lookup c with
  | some bm =>
      rw [hdec] at hmem
      have hd := lookup_mem _ _ _ hdec
      simp only [List.mem_cons, List.not_mem_nil, or_false] at hmem
      rcases hmem with h | h
      · subst h
        exact (List.all_eq_true.mp decompTable_bases) _ hd
      · subst h
        have := (List.all_eq_true.mp decompTable_marks) _ hd
        rw [this] at hnc
        cases hnc
  | none =>
      rw [hdec] at hmem
      have hc : c' = c := by simpa using hmem
      subst hc
      unfold pyLowerChar
      cases hlow : lowTable.lookup c' with
      | none => simp [goodCharB, hdec, hnc, hlow]
      | some lc =>
          have hm := lookup_mem _ _ _ hlow
          have h3 := (List.all_eq_true.mp lowTable_good) _ hm
          simp only [hdec, Option.isSome_none, Bool.false_or] at h3
          simpa [hlow] using h3

/-- All characters of `strip_accents(s).lower()` are `norm_word`-stable. -/
theorem good_chars_lower_strip (s : String) :
    ∀ c ∈ (pyLower (strip_accents s)).toList, goodCharB c = true := by
  intro c hc
  simp only [pyLower, strip_accents, String.toList, String.mk] at hc
  obtain ⟨c', hc', hmap⟩ := List.mem_map.mp hc
  obtain ⟨hmem, hfil⟩ := List.mem_filter.mp hc'
  obtain ⟨c0, hc0, hnf⟩ := List.mem_flatMap.mp hmem
  subst hmap
  exact good_pyLower_survivor c0 c' hnf (by simpa using hfil)

theorem strip_accents_fixed (l : List Char) (h : ∀ c ∈ l, goodCharB c = true) :
    (nfkd l).filter (fun c => !isCombining c) = l := by
  induction l with
  | nil => rfl
  | cons c rest ih =>
      have hc := h c (List.mem_cons_self _ _)
      simp only [goodCharB, Bool.and_eq_true, Option.isNone_iff_eq_none,
        Bool.not_eq_true'] at hc
      obtain ⟨⟨h1, h2⟩, h3⟩ := hc
      simp only [nfkd, List.flatMap_cons, nfkdChar, h1, List.filter_append]
      rw [List.filter_cons_of_pos (by simp [h2])]
      simp only [List.filter_nil, List.nil_append, List.cons_append]
      have ih2 := ih (fun c hc => h c (List.mem_cons_of_mem _ hc))
      simp only [nfkd] at ih2
      simp [ih2]

theorem pyLower_fixed (l : List Char) (h : ∀ c ∈ l, goodCharB c = true) :
    l.map pyLowerChar = l := by
  induction l with
  | nil => rfl
  | cons c rest ih =>
      have hc := h c (List.mem_cons_self _ _)
      simp only [goodCharB, Bool.and_eq_true, Option.isNone_iff_eq_none] at hc
      obtain ⟨⟨h1, h2⟩, h3⟩ := hc
      simp only [List.map_cons, pyLowerChar, h3, Option.getD_none]
      rw [ih (fun c hc => h c (List.mem_cons_of_mem _ hc))]

theorem goodChar_space : goodCharB ' ' = true := by decide

/-- Words produced by the split: non-empty, whitespace-free, and drawn
from the input characters. -/
theorem splitWhiteGo_spec (cs : List Char) :
    ∀ acc : List Char, (∀ c ∈ acc, pyWS c = false) →
      ∀ w ∈ splitWhiteGo cs acc, w ≠ [] ∧
        ∀ c ∈ w, pyWS c = false ∧ (c ∈ cs ∨ c ∈ acc) := by
  induction cs with
  | nil =>
      intro acc hacc w hw
      simp only [splitWhiteGo] at hw
      split at hw
      · simp at hw
      · rename_i hne
        simp only [List.mem_singleton] at hw
        subst hw
        refine ⟨by simpa using hne, ?_⟩
        intro c hc
        rw [List.mem_reverse] at hc
        exact ⟨hacc c hc, Or.inr hc⟩
  | cons c0 rest ih =>
      intro acc hacc w hw
      simp only [splitWhiteGo] at hw
      by_cases hws : pyWS c0 = true
      · rw [if_pos hws] at hw
        by_cases hacc0 : acc = []
        · rw [if_pos hacc0] at hw
          obtain ⟨h1, h2⟩ := ih [] (by simp) w hw
          refine ⟨h1, ?_⟩
          intro c hc
          obtain ⟨hc1, hc2⟩ := h2 c hc
          rcases hc2 with h | h
          · exact ⟨hc1, Or.inl (List.mem_cons_of_mem _ h)⟩
          · simp at h
        · rw [if_neg hacc0] at hw
          rcases List.mem_cons.mp hw with hw | hw
          · subst hw
            refine ⟨by simpa using hacc0, ?_⟩
            intro c hc
            rw [List.mem_reverse] at hc
            exact ⟨hacc c hc, Or.inr hc⟩
          · obtain ⟨h1, h2⟩ := ih [] (by simp) w hw
            refine ⟨h1, ?_⟩
            intro c hc
            obtain ⟨hc1, hc2⟩ := h2 c hc
            rcases hc2 with h | h
            · exact ⟨hc1, Or.inl (List.mem_cons_of_mem _ h)⟩
            · simp at h
      · rw [if_neg hws] at hw
        have hc0 : pyWS c0 = false := by simpa using hws
        obtain ⟨h1, h2⟩ := ih (c0 :: acc)
          (by
            intro c hc
            rcases List.mem_cons.mp hc with h | h
            · exact h ▸ hc0
            · exact hacc c h) w hw
        refine ⟨h1, ?_⟩
        intro c hc
        obtain ⟨hc1, hc2⟩ := h2 c hc
        rcases hc2 with h | h
        · exact ⟨hc1, Or.inl (List.mem_cons_of_mem _ h)⟩
        · rcases List.mem_cons.mp h with h3 | h3
          · exact ⟨hc1, Or.inl (h3 ▸ List.mem_cons_self _ _)⟩
          · exact ⟨hc1, Or.inr h3⟩

theorem intercalate_nil_sp : List.intercalate [' '] ([] : List (List Char)) = [] := by
  simp [List.intercalate]

theorem intercalate_single_sp (w : List Char) : List.intercalate [' '] [w] = w := by
  simp [List.intercalate]

theorem intercalate_cons_cons_sp (w b : List Char) (t : List (List Char)) :
    List.intercalate [' '] (w :: b :: t) = w ++ ' ' :: List.intercalate [' '] (b :: t) := by
  simp [List.intercalate, List.intersperse_cons_cons]

/-- Scanning a whitespace-free word accumulates it. -/
theorem splitWhiteGo_word (w : List Char) (t : List Char) :
    ∀ acc, (∀ c ∈ w, pyWS c = false) →
      splitWhiteGo (w ++ t) acc = splitWhiteGo t (w.reverse ++ acc) := by
  induction w with
  | nil => intro acc h; simp
  | cons c w' ih =>
      intro acc h
      have hc : pyWS c = false := h c (List.mem_cons_self _ _)
      simp only [List.cons_append, splitWhiteGo, hc, Bool.false_eq_true, if_false,
        List.append_eq]
      rw [ih (c :: acc) (fun x hx => h x (List.mem_cons_of_mem _ hx))]
      simp

/-- Splitting the space-joined list of non-empty whitespace-free words
recovers the words. -/
theorem pySplitWhite_intercalate (ws : List (List Char))
    (hws : ∀ w ∈ ws, w ≠ [] ∧ ∀ c ∈ w, pyWS c = false) :
    pySplitWhite (List.intercalate [' '] ws) = ws := by
  induction ws with
  | nil => simp [intercalate_nil_sp, pySplitWhite, splitWhiteGo]
  | cons w rest ih =>
      obtain ⟨hne, hnws⟩ := hws w (List.mem_cons_self _ _)
      cases rest with
      | nil =>
          rw [intercalate_single_sp]
          unfold pySplitWhite
          have h0 : w ++ ([] : List Char) = w := by simp
          rw [← h0, splitWhiteGo_word w [] [] hnws]
          simp [splitWhiteGo, hne]
      | cons w2 rest2 =>
          rw [intercalate_cons_cons_sp]
          unfold pySplitWhite
          rw [splitWhiteGo_word w _ [] hnws]
          have hsp : pyWS ' ' = true := by decide
          simp only [List.append_nil, splitWhiteGo, hsp, if_true]
          rw [if_neg (by simpa using hne)]
          rw [List.reverse_reverse]
          have ih2 := ih (fun x hx => hws x (List.mem_cons_of_mem _ hx))
          unfold pySplitWhite at ih2
          rw [ih2]

theorem mem_intercalate_sp (ws : List (List Char)) (c : Char)
    (hc : c ∈ List.intercalate [' '] ws) : c = ' ' ∨ ∃ w ∈ ws, c ∈ w := by
  induction ws with
  | nil => rw [intercalate_nil_sp] at hc; simp at hc
  | cons w rest ih =>
      cases rest with
      | nil =>
          rw [intercalate_single_sp] at hc
          exact Or.inr ⟨w, List.mem_cons_self _ _, hc⟩
      | cons w2 rest2 =>
          rw [intercalate_cons_cons_sp] at hc
          rcases List.mem_append.mp hc with h | h
          · exact Or.inr ⟨w, List.mem_cons_self _ _, h⟩
          · rcases List.mem_cons.mp h with h | h
            · exact Or.inl h
            · rcases ih h with h | ⟨w', hw', hcw⟩
              · exact Or.inl h
              · exact Or.inr ⟨w', List.mem_cons_of_mem _ hw', hcw⟩

theorem mem_of_head?_eq_some {α : Type} (l : List α) (c : α)
    (h : l.head? = some c) : c ∈ l := by
  cases l with
  | nil => simp at h
  | cons x xs =>
      have hx : x = c := by simpa using h
      exact hx ▸ List.mem_cons_self _ _

/-- `s.strip()` is the identity when the ends are not whitespace. -/
theorem pyStripL_eq_self (l : List Char)
    (hhead : ∀ c, l.head? = some c → pyWS c = false)
    (hlast : ∀ c, l.getLast? = some c → pyWS c = false) :
    pyStripL l = l := by
  unfold pyStripL
  have h1 : l.dropWhile pyWS = l := by
    cases l with
    | nil => rfl
    | cons c rest =>
        rw [List.dropWhile_cons_of_neg]
        simp [hhead c rfl]
  rw [h1]
  have h2 : l.reverse.dropWhile pyWS = l.reverse := by
    cases hr : l.reverse with
    | nil => rfl
    | cons c rest =>
        rw [List.dropWhile_cons_of_neg]
        have hg : l.getLast? = some c := by
          rw [← List.head?_reverse, hr]
          rfl
        simp [hlast c hg]
  rw [h2, List.reverse_reverse]

theorem intercalate_head_nws (ws : List (List Char))
    (hws : ∀ w ∈ ws, w ≠ [] ∧ ∀ c ∈ w, pyWS c = false) :
    ∀ c, (List.intercalate [' '] ws).head? = some c → pyWS c = false := by
  intro c hc
  cases ws with
  | nil => rw [intercalate_nil_sp] at hc; simp at hc
  | cons w rest =>
      obtain ⟨hne, hnws⟩ := hws w (List.mem_cons_self _ _)
      have hw : ∃ t, List.intercalate [' '] (w :: rest) = w ++ t := by
        cases rest with
        | nil => exact ⟨[], by rw [intercalate_single_sp]; simp⟩
        | cons w2 rest2 => exact ⟨_, intercalate_cons_cons_sp w w2 rest2⟩
      obtain ⟨t, ht⟩ := hw
      rw [ht] at hc
      cases w with
      | nil => exact absurd rfl hne
      | cons c0 w' =>
          have : c0 = c := by simpa using hc
          exact this ▸ hnws c0 (List.mem_cons_self _ _)

theorem intercalate_ne_nil_sp (w : List Char) (rest : List (List Char))
    (hne : w ≠ []) : List.intercalate [' '] (w :: rest) ≠ [] := by
  cases rest with
  | nil => rw [intercalate_single_sp]; exact hne
  | cons w2 rest2 =>
      rw [intercalate_cons_cons_sp]
      simp [hne]

theorem intercalate_last_nws (ws : List (List Char))
    (hws : ∀ w ∈ ws, w ≠ [] ∧ ∀ c ∈ w, pyWS c = false) :
    ∀ c, (List.intercalate [' '] ws).getLast? = some c → pyWS c = false := by
  induction ws with
  | nil => intro c hc; rw [intercalate_nil_sp] at hc; simp at hc
  | cons w rest ih =>
      intro c hc
      obtain ⟨hne, hnws⟩ := hws w (List.mem_cons_self _ _)
      cases rest with
      | nil =>
          rw [intercalate_single_sp] at hc
          have hmem : c ∈ w := by
            rw [List.getLast?_eq_head?_reverse] at hc
            exact List.mem_reverse.mp (mem_of_head?_eq_some _ _ hc)
          exact hnws c hmem
      | cons w2 rest2 =>
          rw [intercalate_cons_cons_sp, List.getLast?_append] at hc
          obtain ⟨hne2, _⟩ := hws w2 (List.mem_cons_of_mem _ (List.mem_cons_self _ _))
          have htail : (' ' :: List.intercalate [' '] (w2 :: rest2)).getLast? =
              (List.intercalate [' '] (w2 :: rest2)).getLast? := by
            cases hti : List.intercalate [' '] (w2 :: rest2) with
            | nil => exact absurd hti (intercalate_ne_nil_sp w2 rest2 hne2)
            | cons x xs => exact List.getLast?_cons_cons
          rw [htail] at hc
          cases hgl : (List.intercalate [' '] (w2 :: rest2)).getLast? with
          | none =>
              rw [hgl] at hc
              simp only [Option.none_or] at hc
              have hmem : c ∈ w := by
                rw [List.getLast?_eq_head?_reverse] at hc
                exact List.mem_reverse.mp (mem_of_head?_eq_some _ _ hc)
              exact hnws c hmem
          | some c2 =>
              rw [hgl] at hc
              simp only [Option.or, Option.some.injEq] at hc
              subst hc
              exact ih (fun x hx => hws x (List.mem_cons_of_mem _ hx)) c2 hgl

/-- The output characters of `norm_word` are `norm_word`-stable and the
output has no leading/trailing whitespace; hence `norm_word` is
idempotent. -/
theorem norm_word_idem (s : String) : norm_word (norm_word s) = norm_word s := by
  have hgoodall := good_chars_lower_strip s
  set base : List Char := (pyLower (strip_accents s)).toList with hbase
  set ws : List (List Char) := pySplitWhite (pyStripL base) with hws
  have hbase_good : ∀ c ∈ pyStripL base, goodCharB c = true := by
    intro c hc
    apply hgoodall
    unfold pyStripL at hc
    have h1 : c ∈ (base.dropWhile pyWS).reverse.dropWhile pyWS := by
      rw [← List.mem_reverse]
      exact hc
    have h2 := (List.dropWhile_sublist pyWS).subset h1
    rw [List.mem_reverse] at h2
    exact (List.dropWhile_sublist pyWS).subset h2
  have hws_spec : ∀ w ∈ ws, w ≠ [] ∧ ∀ c ∈ w, pyWS c = false ∧ c ∈ pyStripL base := by
    intro w hw
    have := splitWhiteGo_spec (pyStripL base) [] (by simp) w hw
    refine ⟨this.1, ?_⟩
    intro c hc
    obtain ⟨h1, h2⟩ := this.2 c hc
    rcases h2 with h | h
    · exact ⟨h1, h⟩
    · simp at h
  have hws_good : ∀ w ∈ ws, w ≠ [] ∧ ∀ c ∈ w, pyWS c = false := by
    intro w hw
    obtain ⟨h1, h2⟩ := hws_spec w hw
    exact ⟨h1, fun c hc => (h2 c hc).1⟩
  set t : List Char := List.intercalate [' '] ws with ht
  have ht_good : ∀ c ∈ t, goodCharB c = true := by
    intro c hc
    rcases mem_intercalate_sp ws c hc with h | ⟨w, hw, hcw⟩
    · rw [h]; exact goodChar_space
    · exact hbase_good c ((hws_spec w hw).2 c hcw).2
  have hnw : norm_word s = String.mk t := rfl
  rw [hnw]
  rw [norm_word]
  have hstrip : strip_accents (String.mk t) = String.mk t := by
    unfold strip_accents
    simp only [String.toList, String.mk]
    rw [strip_accents_fixed t ht_good]
  rw [hstrip]
  have hlow : pyLower (String.mk t) = String.mk t := by
    unfold pyLower
    simp only [String.toList, String.mk]
    rw [pyLower_fixed t ht_good]
  rw [hlow]
  have hstripL : pyStripL (String.mk t).toList = t := by
    simp only [String.toList, String.mk]
    exact pyStripL_eq_self t (intercalate_head_nws ws hws_good)
      (intercalate_last_nws ws hws_good)
  rw [hstripL]
  rw [pySplitWhite_intercalate ws hws_good]

theorem clampW_fix (n : Int) (h1 : 1 ≤ n) (h2 : n ≤ 3) : clampW n = n := by
  unfold clampW
  omega

theorem itemKW_good (item : J) (p : String × Int) (h : itemKW item = some p) :
    kwGood p := by
  cases item <;> simp [itemKW] at h
  obtain ⟨h1, h2⟩ := h
  subst h2
  refine ⟨norm_word_idem _, h1, ?_, ?_⟩
  · exact le_max_left _ _
  · unfold clampW; omega

theorem mem_bestSet_good (acc : List (String × Int)) (w : String) (n : Int)
    (hacc : ∀ q ∈ acc, kwGood q) (hw : norm_word w = w) (hne : w ≠ "")
    (hn1 : 1 ≤ n) (hn3 : n ≤ 3) :
    ∀ x ∈ bestSet acc w n, kwGood x := by
  induction acc with
  | nil =>
      intro x hx
      simp [bestSet] at hx
      subst hx
      exact ⟨hw, hne, by omega, by omega⟩
  | cons q rest ih =>
      obtain ⟨w0, v0⟩ := q
      have hq := hacc (w0, v0) (List.mem_cons_self _ _)
      intro x hx
      by_cases h0 : w0 = w
      · subst h0
        simp only [bestSet, if_pos rfl, if_true, List.mem_cons] at hx
        rcases hx with hx | hx
        · subst hx
          obtain ⟨hg1, hg2, hg3, hg4⟩ := hq
          exact ⟨hg1, hg2, by simp at hg3 ⊢; omega, by simp at hg4 ⊢; omega⟩
        · exact hacc x (List.mem_cons_of_mem _ hx)
      · simp only [bestSet, if_neg h0, List.mem_cons] at hx
        rcases hx with hx | hx
        · subst hx; exact hq
        · exact ih (fun y hy => hacc y (List.mem_cons_of_mem _ hy)) x hx

theorem foldl_kwItemStep_good (items : List J) :
    ∀ acc, (∀ q ∈ acc, kwGood q) →
      ∀ x ∈ items.foldl kwItemStep acc, kwGood x := by
  induction items with
  | nil => intro acc hacc x hx; exact hacc x hx
  | cons item rest ih =>
      intro acc hacc x hx
      simp only [List.foldl_cons, kwItemStep_eq] at hx
      cases hi : itemKW item with
      | none =>
          rw [hi] at hx
          exact ih acc hacc x hx
      | some p =>
          rw [hi] at hx
          obtain ⟨hg1, hg2, hg3, hg4⟩ := itemKW_good item p hi
          exact ih _ (mem_bestSet_good acc p.1 p.2 hacc hg1 hg2 hg3 hg4) x hx

theorem normalize_keywords_good (payload : J) :
    ∀ p ∈ normalize_keywords payload, kwGood p := by
  intro p hp
  rw [normalize_keywords] at hp
  have hperm := List.perm_insertionSort kwSortRel
    ((rawKWItems payload).foldl kwItemStep [])
  exact foldl_kwItemStep_good (rawKWItems payload) [] (by simp) p (hperm.subset hp)

theorem normalize_keywords_pairwiseKeys (payload : J) :
    (normalize_keywords payload).Pairwise (fun a b => a.1 ≠ b.1) := by
  rw [normalize_keywords]
  have hperm := List.perm_insertionSort kwSortRel
    ((rawKWItems payload).foldl kwItemStep [])
  have hp : ((rawKWItems payload).foldl kwItemStep []).Pairwise
      (fun a b => a.1 ≠ b.1) := by
    rw [foldl_kwItemStep_filterMap]
    exact foldl_bestSet_pairwiseKeys _ [] (by simp)
  exact (hperm.pairwise_iff (fun h => Ne.symm h)).mpr hp

theorem bestSet_append_fresh (acc : List (String × Int)) (w : String) (n : Int)
    (h : ∀ q ∈ acc, q.1 ≠ w) : bestSet acc w n = acc ++ [(w, max 0 n)] := by
  induction acc with
  | nil => rfl
  | cons q rest ih =>
      obtain ⟨w0, v0⟩ := q
      have h0 : w0 ≠ w := h (w0, v0) (List.mem_cons_self _ _)
      simp only [bestSet, if_neg h0, List.cons_append]
      rw [ih (fun y hy => h y (List.mem_cons_of_mem _ hy))]

theorem foldl_bestSet_fresh (l : List (String × Int)) :
    ∀ acc, (∀ p ∈ l, ∀ q ∈ acc, q.1 ≠ p.1) →
      l.Pairwise (fun a b => a.1 ≠ b.1) → (∀ p ∈ l, 0 ≤ p.2) →
      l.foldl (fun b p => bestSet b p.1 p.2) acc = acc ++ l := by
  induction l with
  | nil => intro acc _ _ _; simp
  | cons p rest ih =>
      intro acc hdisj hnd hpos
      rw [List.pairwise_cons] at hnd
      obtain ⟨hp1, hnd2⟩ := hnd
      simp only [List.foldl_cons]
      have hfresh : bestSet acc p.1 p.2 = acc ++ [p] := by
        rw [bestSet_append_fresh acc p.1 p.2
          (fun q hq => hdisj p (List.mem_cons_self _ _) q hq)]
        have : max 0 p.2 = p.2 := by
          have := hpos p (List.mem_cons_self _ _)
          omega
        rw [this]
      rw [hfresh]
      rw [ih (acc ++ [p]) ?hd hnd2 (fun q hq => hpos q (List.mem_cons_of_mem _ hq))]
      · simp
      · intro x hx q hq
        rcases List.mem_append.mp hq with h | h
        · exact hdisj x (List.mem_cons_of_mem _ hx) q h
        · have hq2 : q = p := by simpa using h
          subst hq2
          exact hp1 x hx

/-- C7: `normalize_keywords` is idempotent — re-normalizing its own JSON
output (in any of the accepted payload shapes, here the bare list shape it
emits) returns it unchanged. -/
theorem normalize_keywords_idem (payload : J) :
    normalize_keywords (kwJson (normalize_keywords payload)) =
      normalize_keywords payload := by
  have hgood := normalize_keywords_good payload
  have hpair := normalize_keywords_pairwiseKeys payload
  have hraw : rawKWItems (kwJson (normalize_keywords payload)) =
      (normalize_keywords payload).map
        (fun p => J.obj [("word", .str p.1), ("weight", .num p.2)]) := rfl
  have hitem : ∀ p ∈ normalize_keywords payload,
      itemKW (J.obj [("word", .str p.1), ("weight", .num p.2)]) = some p := by
    intro p hp
    obtain ⟨hg1, hg2, hg3, hg4⟩ := hgood p hp
    have hred : itemKW (J.obj [("word", .str p.1), ("weight", .num p.2)]) =
        (if norm_word p.1 = "" then none else some (norm_word p.1, clampW p.2)) := rfl
    rw [hred, hg1, if_neg hg2, clampW_fix p.2 hg3 hg4]
  have hfm : ∀ l : List (String × Int),
      (∀ p ∈ l, itemKW (J.obj [("word", .str p.1), ("weight", .num p.2)]) = some p) →
      (l.map (fun p => J.obj [("word", .str p.1), ("weight", .num p.2)])).filterMap
        itemKW = l := by
    intro l hl
    induction l with
    | nil => rfl
    | cons p rest ihl =>
        simp only [List.map_cons, List.filterMap_cons, hl p (List.mem_cons_self _ _)]
        rw [ihl (fun q hq => hl q (List.mem_cons_of_mem _ hq))]
  have hpos : ∀ p ∈ normalize_keywords payload, (0 : Int) ≤ p.2 := by
    intro p hp
    obtain ⟨-, -, hg3, -⟩ := hgood p hp
    omega
  have hsorted : List.Sorted kwSortRel (normalize_keywords payload) := by
    rw [normalize_keywords]
    exact List.sorted_insertionSort kwSortRel _
  conv_lhs => rw [normalize_keywords, hraw, foldl_kwItemStep_filterMap,
    hfm _ hitem]
  rw [foldl_bestSet_fresh _ [] (by simp) hpair hpos]
  simp only [List.nil_append]
  exact List.eq_of_perm_of_sorted (List.perm_insertionSort kwSortRel _)
    (List.sorted_insertionSort kwSortRel _) hsorted

/-! ### C8: keyword list cap -/

/-- C8 counterexample: `normalize_keywords` of `qmp/merge_pending.py`
applies no truncation — a payload with 31 distinct words yields 31
entries, above both configured caps (25 and 30). -/
theorem normalize_keywords_no_cap :
    30 < (normalize_keywords (J.arr
      [J.obj [("word", J.str "a"), ("weight", J.num 1)],
       J.obj [("word", J.str "b"), ("weight", J.num 1)],
       J.obj [("word", J.str "c"), ("weight", J.num 1)],
       J.obj [("word", J.str "d"), ("weight", J.num 1)],
       J.obj [("word", J.str "e"), ("weight", J.num 1)],
       J.obj [("word", J.str "f"), ("weight", J.num 1)],
       J.obj [("word", J.str "g"), ("weight", J.num 1)],
       J.obj [("word", J.str "h"), ("weight", J.num 1)],
       J.obj [("word", J.str "i"), ("weight", J.num 1)],
       J.obj [("word", J.str "j"), ("weight", J.num 1)],
       J.obj [("word", J.str "k"), ("weight", J.num 1)],
       J.obj [("word", J.str "l"), ("weight", J.num 1)],
       J.obj [("word", J.str "m"), ("weight", J.num 1)],
       J.obj [("word", J.str "n"), ("weight", J.num 1)],
       J.obj [("word", J.str "o"), ("weight", J.num 1)],
       J.obj [("word", J.str "p"), ("weight", J.num 1)],
       J.obj [("word", J.str "q"), ("weight", J.num 1)],
       J.obj [("word", J.str "r"), ("weight", J.num 1)],
       J.obj [("word", J.str "s"), ("weight", J.num 1)],
       J.obj [("word", J.str "t"), ("weight", J.num 1)],
       J.obj [("word", J.str "u"), ("weight", J.num 1)],
       J.obj [("word", J.str "v"), ("weight", J.num 1)],
       J.obj [("word", J.str "w"), ("weight", J.num 1)],
       J.obj [("word", J.str "x"), ("weight", J.num 1)],
       J.obj [("word", J.str "y"), ("weight", J.num 1)],
       J.obj [("word", J.str "z"), ("weight", J.num 1)],
       J.obj [("word", J.str "aa"), ("weight", J.num 1)],
       J.obj [("word", J.str "ab"), ("weight", J.num 1)],
       J.obj [("word", J.str "ac"), ("weight", J.num 1)],
       J.obj [("word", J.str "ad"), ("weight", J.num 1)],
       J.obj [("word", J.str "ae"), ("weight", J.num 1)]])).length := by
  decide

/-- C8 amended: the cap exists in `scripts/merge_pending.py` —
`parse_keywords_payload` never returns more than 30 keywords. -/
theorem parse_keywords_payload_cap (payload : J) (r : List (String × Int))
    (h : parse_keywords_payload payload = .ok r) : r.length ≤ 30 := by
  have hlen : ∀ kws : List J,
      Except.ok ((kws.foldl pkpStep ([], [])).1.take 30) =
        (Except.ok r : Except String (List (String × Int))) → r.length ≤ 30 := by
    intro kws hk
    simp only [Except.ok.injEq] at hk
    rw [← hk]
    simp [List.length_take]
  unfold parse_keywords_payload at h
  split at h
  · exact hlen _ h
  · split at h
    · exact hlen _ h
    · simp [Functor.map, Except.map, throw, throwThe, MonadExceptOf.throw] at h
  · simp [Functor.map, Except.map, throw, throwThe, MonadExceptOf.throw] at h

/-- Witness for the cap theorem at a concrete payload. -/
theorem parse_keywords_payload_cap_witness : ([] : List (String × Int)).length ≤ 30 :=
  parse_keywords_payload_cap (J.arr []) [] rfl

/-! ### C10: parser raises-only condition -/

/-- C10 counterexample: `make_pending_entry` performs no check on the
ANALYSIS (`# TEXTO`) section — on an input with a valid `FECHA:` whose
body has no `# TEXTO` section at all, parsing succeeds instead of
raising. -/
theorem make_pending_entry_no_analysis_check :
    (extract_sections
        (parse_meta_and_body "FECHA: 2025-01-01\n\n# POEMA\nun verso").2).lookup
      "TEXTO" = none ∧
    (make_pending_entry "FECHA: 2025-01-01\n\n# POEMA\nun verso"
        "nota").isSome = true :=
  ⟨rfl, rfl⟩

/-- C10 amended: `make_pending_entry` never raises on missing metadata
and never checks any section; it succeeds exactly when the resolved date
(the `FECHA:` metadata if non-empty, else the file stem) matches
`YYYY-MM-DD`. -/
theorem make_pending_entry_success_iff (raw stem : String) :
    (make_pending_entry raw stem).isSome = true ↔
      isDateYMD (match (parse_meta_and_body raw).1.lookup "date" with
        | some d => if d ≠ "" then d else stem
        | none => stem) = true := by
  cases hd : isDateYMD (match (parse_meta_and_body raw).1.lookup "date" with
      | some d => if d ≠ "" then d else stem
      | none => stem) with
  | true =>
      simp only [ne_eq, ite_not] at hd
      simp [make_pending_entry, hd]
  | false =>
      simp only [ne_eq, ite_not] at hd
      simp [make_pending_entry, hd]

/-! ### C9: archive root shape -/

/-- Inversion for a successful merge: the root written by
`qmp/merge_pending.py` keeps the shape that was read. -/
theorem merge_main_ok_shape (root : J) (entry0 : Dict)
    (applyKw dryRun sortByDate : Bool) (pendingKw : Option J) (out : J)
    (st : MergeStatus)
    (hok : merge_main root entry0 applyKw dryRun sortByDate pendingKw = .ok (out, st)) :
    ∃ l : List Dict,
      out = (match root with
        | .obj kvs => J.obj (setKV kvs "entries" (.arr (l.map .obj)))
        | _ => .arr (l.map .obj)) := by
  simp only [merge_main, bind, Except.bind] at hok
  cases hl : load_archivo root with
  | error e => simp [hl] at hok
  | ok es =>
  simp only [hl] at hok
  cases hd : List.lookup "date" entry0 with
  | none => simp [pyGet, hd] at hok
  | some d =>
  simp only [pyGet, hd] at hok
  by_cases ht : truthy d = true
  · simp only [ht, if_true] at hok
    cases hs : selectKeywords applyKw pendingKw d (findOld es d) with
    | error e => simp [hs] at hok
    | ok sel =>
    simp only [hs] at hok
    split at hok
    · simp [throw, throwThe, MonadExceptOf.throw] at hok
    · simp only [pure, Except.pure] at hok
      cases hu : upsert_entry es (setKV (delKV entry0 "sections") "keywords" sel.1) with
      | error e => simp [hu] at hok
      | ok up =>
      simp only [hu] at hok
      refine ⟨if sortByDate then sortEntriesByDate up.1 else up.1, ?_⟩
      cases root <;> simp_all
  · simp only [ht] at hok
    simp at hok

/-- `apply_pending_entry_into_archivo` only ever writes a bare array. -/
theorem apply_pending_always_arr (d : String) (p root v : J)
    (h : apply_pending_entry_into_archivo d p root = .ok v) : ∃ l, v = .arr l := by
  simp only [apply_pending_entry_into_archivo, bind, Except.bind, pure, Except.pure] at h
  cases p <;> simp at h
  split at h
  · simp at h
  · split at h
    · simp only [Except.ok.injEq] at h
      exact ⟨_, h.symm⟩
    · simp at h

/-- C9 corrected: `qmp/merge_pending.py` preserves the archive root shape
(a wrapper keeps its other root keys with `entries` replaced in place, a
bare array stays a bare array), but the `apply_pending_entry_into_archivo`
helpers of `scripts/qcommon.py` / `scripts/qcrear.py` always write a bare
array whatever shape was read — e.g. the wrapper
`{"entries": [], "x": "y"}` comes back as a bare array with `"x"` gone. -/
theorem archive_root_shape (root : J) (entry0 : Dict)
    (applyKw dryRun sortByDate : Bool) (pendingKw : Option J) (out : J)
    (st : MergeStatus)
    (hok : merge_main root entry0 applyKw dryRun sortByDate pendingKw = .ok (out, st)) :
    ((∀ kvs, root = .obj kvs →
        ∃ kvs2, out = .obj kvs2 ∧
          ∀ k, k ≠ "entries" → List.lookup k kvs2 = List.lookup k kvs) ∧
      (∀ l, root = .arr l → ∃ l2, out = .arr l2)) ∧
    (∀ (d : String) (p v : J), apply_pending_entry_into_archivo d p root = .ok v →
        ∃ l2, v = .arr l2) := by
  obtain ⟨l, hshape⟩ := merge_main_ok_shape root entry0 applyKw dryRun sortByDate pendingKw
    out st hok
  refine ⟨⟨?_, ?_⟩, ?_⟩
  · intro kvs hroot
    subst hroot
    refine ⟨setKV kvs "entries" (.arr (l.map .obj)), by simpa using hshape, ?_⟩
    intro k hk
    exact lookup_setKV_ne kvs "entries" k _ hk
  · intro ll hroot
    subst hroot
    exact ⟨l.map .obj, by simpa using hshape⟩
  · exact fun d p v happ => apply_pending_always_arr d p root v happ

/-- Witness for C9's theorem at a concrete successful merge against a
wrapper-shaped archive root. -/
theorem archive_root_shape_witness :
    ((∀ kvs, (J.obj [("entries", J.arr [J.obj [("date", J.str "2025-01-01"),
          ("keywords", J.arr [J.obj [("word", J.str "x"), ("weight", J.num 1)]])]]),
        ("x", J.str "y")]) = .obj kvs →
        ∃ kvs2, (J.obj [("entries", J.arr [J.obj [("date", J.str "2025-01-01"),
            ("keywords", J.arr [J.obj [("word", J.str "x"), ("weight", J.num 1)]])]]),
          ("x", J.str "y")]) = .obj kvs2 ∧
          ∀ k, k ≠ "entries" → List.lookup k kvs2 = List.lookup k kvs) ∧
      (∀ l, (J.obj [("entries", J.arr [J.obj [("date", J.str "2025-01-01"),
          ("keywords", J.arr [J.obj [("word", J.str "x"), ("weight", J.num 1)]])]]),
        ("x", J.str "y")]) = .arr l →
        ∃ l2, (J.obj [("entries", J.arr [J.obj [("date", J.str "2025-01-01"),
            ("keywords", J.arr [J.obj [("word", J.str "x"), ("weight", J.num 1)]])]]),
          ("x", J.str "y")]) = .arr l2)) ∧
    (∀ (d : String) (p v : J),
        apply_pending_entry_into_archivo d p
          (J.obj [("entries", J.arr [J.obj [("date", J.str "2025-01-01"),
              ("keywords", J.arr [J.obj [("word", J.str "x"), ("weight", J.num 1)]])]]),
            ("x", J.str "y")]) = .ok v →
        ∃ l2, v = .arr l2) :=
  archive_root_shape
    (J.obj [("entries", J.arr [J.obj [("date", J.str "2025-01-01"),
        ("keywords", J.arr [J.obj [("word", J.str "x"), ("weight", J.num 1)]])]]),
      ("x", J.str "y")])
    [("date", J.str "2025-01-01")] false false false none
    (J.obj [("entries", J.arr [J.obj [("date", J.str "2025-01-01"),
        ("keywords", J.arr [J.obj [("word", J.str "x"), ("weight", J.num 1)]])]]),
      ("x", J.str "y")])
    { dry_run := false, date := J.str "2025-01-01", exists_before := true,
      entry_index := 0, content_changed := false, keywords_changed := false,
      applied_keywords := false, archivo_written := true,
      my_poem_title := J.str "", my_poem_snippet := J.str "" }
    (by rfl)

/-- C9 counterexample: the spec's "writers preserve whichever shape was
read" fails for `apply_pending_entry_into_archivo`: reading the wrapper
`{"entries": [], "x": "y"}` and applying a pending entry writes the bare
array `[{…}]`, dropping the wrapper and its `"x"` key. -/
theorem apply_pending_drops_wrapper :
    apply_pending_entry_into_archivo "2025-01-01"
      (J.obj [("date", J.str "2025-01-01")])
      (J.obj [("entries", J.arr []), ("x", J.str "y")]) =
      .ok (J.arr [J.obj [("date", J.str "2025-01-01")]]) := by
  rfl

/-! ### C3: fingerprint stability and sensitivity -/

theorem replCRLF_cons_eq (c : Char) (rest : List Char)
    (h : c ≠ '\r' ∨ rest.head? ≠ some '\n') :
    replCRLF (c :: rest) = c :: replCRLF rest := by
  cases rest with
  | nil => simp [replCRLF]
  | cons d r2 =>
      rcases h with h | h
      · simp [replCRLF, h]
      · simp at h
        simp [replCRLF, h]

theorem replCRLF_no_cr_append (xs ys : List Char) (h : '\r' ∉ xs) :
    replCRLF (xs ++ ys) = xs ++ replCRLF ys := by
  induction xs with
  | nil => rfl
  | cons c rest ih =>
      have hc : c ≠ '\r' := fun he => h (he ▸ List.mem_cons_self c rest)
      rw [List.cons_append, replCRLF_cons_eq c (rest ++ ys) (Or.inl hc),
        ih (fun hm => h (List.mem_cons_of_mem c hm))]
      rfl

theorem replCRLF_no_cr (xs : List Char) (h : '\r' ∉ xs) :
    replCRLF xs = xs := by
  have h1 := replCRLF_no_cr_append xs [] h
  have h0 : replCRLF ([] : List Char) = [] := rfl
  simpa [h0] using h1

theorem replCR_append (a b : List Char) :
    replCR (a ++ b) = replCR a ++ replCR b := by
  simp [replCR]

theorem replCR_no_cr (xs : List Char) (h : '\r' ∉ xs) :
    replCR xs = xs := by
  induction xs with
  | nil => rfl
  | cons c rest ih =>
      have hc : c ≠ '\r' := fun he => h (he ▸ List.mem_cons_self c rest)
      simp only [replCR, List.map_cons, if_neg hc]
      have := ih (fun hm => h (List.mem_cons_of_mem c hm))
      simpa [replCR] using this

/-- Appending `"\n"` to a text either appends `"\n"` after CRLF collapsing,
or (when the text ends with a dangling `'\r'` that the new `'\n'` pairs
with) leaves the collapsed text with its final `'\r'` turned into the new
break. -/
theorem replCRLF_snoc_nl (s : List Char) :
    replCRLF (s ++ ['\n']) = replCRLF s ++ ['\n'] ∨
    ∃ pre, replCRLF s = pre ++ ['\r'] ∧ replCRLF (s ++ ['\n']) = pre ++ ['\n'] := by
  induction s using replCRLF.induct with
  | case1 => left; rfl
  | case2 rest ih =>
      rcases ih with ih | ⟨pre, h1, h2⟩
      · left
        rw [List.cons_append, List.cons_append, replCRLF.eq_2, ih, replCRLF.eq_2]
        rfl
      · right
        refine ⟨'\n' :: pre, ?_, ?_⟩
        · rw [replCRLF.eq_2, h1]; rfl
        · rw [List.cons_append, List.cons_append, replCRLF.eq_2, h2]; rfl
  | case3 c rest hshape ih =>
      by_cases hc : c = '\r'
      · subst hc
        cases rest with
        | nil =>
            right
            exact ⟨[], rfl, rfl⟩
        | cons d r2 =>
            have hd : d ≠ '\n' := fun he => hshape r2 rfl (he ▸ rfl)
            have he1 : replCRLF ('\r' :: d :: r2) = '\r' :: replCRLF (d :: r2) :=
              replCRLF_cons_eq '\r' (d :: r2) (Or.inr (by simp [hd]))
            have he2 : replCRLF ('\r' :: ((d :: r2) ++ ['\n'])) =
                '\r' :: replCRLF ((d :: r2) ++ ['\n']) :=
              replCRLF_cons_eq '\r' ((d :: r2) ++ ['\n']) (Or.inr (by simp [hd]))
            rcases ih with ih | ⟨pre, h1, h2⟩
            · left
              rw [List.cons_append, he2, ih, he1]
              rfl
            · right
              refine ⟨'\r' :: pre, ?_, ?_⟩
              · rw [he1, h1]; rfl
              · rw [List.cons_append, he2, h2]; rfl
      · have he1 : replCRLF (c :: rest) = c :: replCRLF rest :=
          replCRLF_cons_eq c rest (Or.inl hc)
        have he2 : replCRLF (c :: (rest ++ ['\n'])) = c :: replCRLF (rest ++ ['\n']) :=
          replCRLF_cons_eq c (rest ++ ['\n']) (Or.inl hc)
        rcases ih with ih | ⟨pre, h1, h2⟩
        · left
          rw [List.cons_append, he2, ih, he1]
          rfl
        · right
          refine ⟨c :: pre, ?_, ?_⟩
          · rw [he1, h1]; rfl
          · rw [List.cons_append, he2, h2]; rfl

/-- After CRLF and CR collapsing, appending `"\n"` appends `"\n"` or is
absorbed. -/
theorem crColl_snoc_nl (s : List Char) :
    replCR (replCRLF (s ++ ['\n'])) = replCR (replCRLF s) ++ ['\n'] ∨
    replCR (replCRLF (s ++ ['\n'])) = replCR (replCRLF s) := by
  rcases replCRLF_snoc_nl s with h | ⟨pre, h1, h2⟩
  · left
    rw [h, replCR_append]
    rfl
  · right
    rw [h1, h2, replCR_append, replCR_append]
    rfl

theorem splitNL_ne_nil (x : List Char) : splitNL x ≠ [] := by
  cases x with
  | nil => simp [splitNL]
  | cons c rest =>
      by_cases hc : c = '\n'
      · simp [splitNL, hc]
      · simp only [splitNL, if_neg hc]
        cases splitNL rest <;> simp

theorem splitNL_cons_cons (c : Char) (rest l : List Char) (ls : List (List Char))
    (hc : c ≠ '\n') (h : splitNL rest = l :: ls) :
    splitNL (c :: rest) = (c :: l) :: ls := by
  simp [splitNL, hc, h]

theorem splitNL_append_nl (y : List Char) :
    splitNL (y ++ ['\n']) = splitNL y ++ [[]] := by
  induction y with
  | nil => rfl
  | cons c rest ih =>
      by_cases hc : c = '\n'
      · subst hc
        have hstep : splitNL ('\n' :: (rest ++ ['\n'])) =
            [] :: splitNL (rest ++ ['\n']) := rfl
        rw [List.cons_append, hstep, ih]
        rfl
      · obtain ⟨l, ls, h⟩ : ∃ l ls, splitNL rest = l :: ls := by
          cases h : splitNL rest with
          | nil => exact absurd h (splitNL_ne_nil rest)
          | cons a b => exact ⟨a, b, rfl⟩
        have h2 : splitNL (rest ++ ['\n']) = l :: (ls ++ [[]]) := by
          rw [ih, h]; rfl
        rw [List.cons_append, splitNL_cons_cons c _ l (ls ++ [[]]) hc h2,
          splitNL_cons_cons c rest l ls hc h]
        rfl

theorem splitNL_no_nl_append (xs ys : List Char) (h : '\n' ∉ xs) :
    splitNL (xs ++ '\n' :: ys) = xs :: splitNL ys := by
  induction xs with
  | nil => simp [splitNL]
  | cons c rest ih =>
      have hc : c ≠ '\n' := fun he => h (he ▸ List.mem_cons_self c rest)
      have h2 := ih (fun hm => h (List.mem_cons_of_mem c hm))
      rw [List.cons_append, splitNL_cons_cons c _ rest (splitNL ys) hc h2]

theorem splitNL_no_nl (xs : List Char) (h : '\n' ∉ xs) :
    splitNL xs = [xs] := by
  induction xs with
  | nil => rfl
  | cons c rest ih =>
      have hc : c ≠ '\n' := fun he => h (he ▸ List.mem_cons_self c rest)
      have h2 := ih (fun hm => h (List.mem_cons_of_mem c hm))
      exact splitNL_cons_cons c rest rest [] hc h2

theorem dropWhile_append_all {α : Type} (p : α → Bool) (a b : List α)
    (h : ∀ c ∈ a, p c) :
    (a ++ b).dropWhile p = b.dropWhile p := by
  induction a with
  | nil => rfl
  | cons c rest ih =>
      simp only [List.cons_append, List.dropWhile_cons,
        h c (List.mem_cons_self c rest)]
      exact ih (fun x hx => h x (List.mem_cons_of_mem c hx))

theorem dropWhile_append_of_ne_nil {α : Type} (p : α → Bool) (a b : List α)
    (h : a.dropWhile p ≠ []) :
    (a ++ b).dropWhile p = a.dropWhile p ++ b := by
  induction a with
  | nil => simp [List.dropWhile] at h
  | cons c rest ih =>
      by_cases hc : p c
      · simp only [List.dropWhile_cons, hc, if_true] at h ⊢
        simp only [List.cons_append, List.dropWhile_cons, hc, if_true]
        exact ih h
      · simp only [List.cons_append, List.dropWhile_cons, hc]
        simp

theorem rstripL_append_ws (l pad : List Char) (h : ∀ c ∈ pad, pyWS c) :
    rstripL (l ++ pad) = rstripL l := by
  simp only [rstripL, List.reverse_append]
  rw [dropWhile_append_all pyWS pad.reverse l.reverse
    (fun c hc => h c (List.mem_reverse.mp hc))]

/-- Dropping a trailing blank line commutes with the blank-line trimming
done by `normLines`. -/
theorem trim_append_blank (zs : List (List Char)) :
    (((zs ++ [[]]).dropWhile blankL).reverse.dropWhile blankL).reverse =
      ((zs.dropWhile blankL).reverse.dropWhile blankL).reverse := by
  cases h : zs.dropWhile blankL with
  | nil =>
      have hall : ∀ l ∈ zs, blankL l := by
        intro l hl
        exact List.dropWhile_eq_nil_iff.mp h l hl
      rw [dropWhile_append_all blankL zs [[]] hall]
      simp [h, List.dropWhile, blankL, pyStripL]
  | cons l ls =>
      rw [dropWhile_append_of_ne_nil blankL zs [[]] (by rw [h]; simp), h]
      simp only [List.reverse_append, List.reverse_cons]
      have hblank : blankL ([] : List Char) = true := by simp [blankL, pyStripL]
      simp [List.dropWhile_cons, hblank]

theorem normLines_snoc_nl (s : List Char) :
    normLines (s ++ ['\n']) = normLines s := by
  rcases crColl_snoc_nl s with h | h
  · simp only [normLines, h, splitNL_append_nl, List.map_append]
    have hm : ([[]] : List (List Char)).map rstripL = [[]] := rfl
    rw [hm]
    exact trim_append_blank _
  · simp only [normLines, h]

theorem normLines_snoc_two_nl (s : List Char) :
    normLines (s ++ ['\n', '\n']) = normLines s := by
  have hsplit : s ++ ['\n', '\n'] = (s ++ ['\n']) ++ ['\n'] := by simp
  rw [hsplit, normLines_snoc_nl, normLines_snoc_nl]

theorem normalize_snoc_two_nl (t : String) :
    normalize_text_for_hash (String.mk (t.toList ++ ['\n', '\n'])) =
      normalize_text_for_hash t := by
  simp only [normalize_text_for_hash]
  have hml : (String.mk (t.toList ++ ['\n', '\n'])).toList =
      t.toList ++ ['\n', '\n'] := rfl
  rw [hml, normLines_snoc_two_nl]

theorem intercalate_nl_cons_cons (l l2 : List Char) (r2 : List (List Char)) :
    List.intercalate ['\n'] (l :: l2 :: r2) =
      l ++ '\n' :: List.intercalate ['\n'] (l2 :: r2) := by
  simp [List.intercalate, List.intersperse]

theorem splitNL_join_lines (ls : List (List Char)) (h : ∀ l ∈ ls, '\n' ∉ l)
    (hne : ls ≠ []) :
    splitNL (List.intercalate ['\n'] ls) = ls := by
  induction ls with
  | nil => exact absurd rfl hne
  | cons l rest ih =>
      cases rest with
      | nil =>
          have h1 : List.intercalate ['\n'] [l] = l := by
            simp [List.intercalate]
          rw [h1, splitNL_no_nl l (h l (List.mem_cons_self l []))]
      | cons l2 r2 =>
          rw [intercalate_nl_cons_cons,
            splitNL_no_nl_append l _ (h l (List.mem_cons_self l (l2 :: r2))),
            ih (fun q hq => h q (List.mem_cons_of_mem l hq)) (by simp)]

theorem no_cr_intercalate (ls : List (List Char)) (h : ∀ l ∈ ls, '\r' ∉ l) :
    '\r' ∉ List.intercalate ['\n'] ls := by
  induction ls with
  | nil => simp [List.intercalate]
  | cons l rest ih =>
      cases rest with
      | nil =>
          have h1 : List.intercalate ['\n'] [l] = l := by
            simp [List.intercalate]
          rw [h1]
          exact h l (List.mem_cons_self l [])
      | cons l2 r2 =>
          rw [intercalate_nl_cons_cons]
          intro hm
          rcases List.mem_append.mp hm with hm | hm
          · exact h l (List.mem_cons_self l (l2 :: r2)) hm
          · rcases List.mem_cons.mp hm with hm | hm
            · simp at hm
            · exact ih (fun q hq => h q (List.mem_cons_of_mem l hq)) hm

theorem splitNL_build (ps : List (List Char × List Char × Bool))
    (hc : ∀ pr ∈ ps, ∀ ch ∈ pr.1, ch ≠ '\r' ∧ ch ≠ '\n')
    (hp : ∀ pr ∈ ps, ∀ ch ∈ pr.2.1, ch = ' ' ∨ ch = '\t') :
    splitNL (replCR (replCRLF (ps.foldr
        (fun pr acc =>
          pr.1 ++ pr.2.1 ++ (if pr.2.2 then ['\r', '\n'] else ['\n']) ++ acc)
        []))) =
      (ps.map fun pr => pr.1 ++ pr.2.1) ++ [[]] := by
  induction ps with
  | nil => rfl
  | cons pr rest ih =>
      have hprc := hc pr (List.mem_cons_self pr rest)
      have hprp := hp pr (List.mem_cons_self pr rest)
      have hnr : '\r' ∉ pr.1 ++ pr.2.1 := by
        intro hm
        rcases List.mem_append.mp hm with hm | hm
        · exact (hprc '\r' hm).1 rfl
        · rcases hprp '\r' hm with h | h <;> simp at h
      have hnn : '\n' ∉ pr.1 ++ pr.2.1 := by
        intro hm
        rcases List.mem_append.mp hm with hm | hm
        · exact (hprc '\n' hm).2 rfl
        · rcases hprp '\n' hm with h | h <;> simp at h
      have hb : (pr :: rest).foldr
          (fun pr acc =>
            pr.1 ++ pr.2.1 ++ (if pr.2.2 then ['\r', '\n'] else ['\n']) ++ acc)
          [] =
          (pr.1 ++ pr.2.1) ++ ((if pr.2.2 then ['\r', '\n'] else ['\n']) ++
            rest.foldr
              (fun pr acc =>
                pr.1 ++ pr.2.1 ++ (if pr.2.2 then ['\r', '\n'] else ['\n']) ++ acc)
              []) := by
        simp [List.append_assoc]
      rw [hb, replCRLF_no_cr_append _ _ hnr]
      have hend : replCRLF ((if pr.2.2 then ['\r', '\n'] else ['\n']) ++
          rest.foldr
            (fun pr acc =>
              pr.1 ++ pr.2.1 ++ (if pr.2.2 then ['\r', '\n'] else ['\n']) ++ acc)
            []) =
          '\n' :: replCRLF (rest.foldr
            (fun pr acc =>
              pr.1 ++ pr.2.1 ++ (if pr.2.2 then ['\r', '\n'] else ['\n']) ++ acc)
            []) := by
        by_cases hf : pr.2.2
        · rw [if_pos hf]
          exact replCRLF.eq_2 _
        · rw [if_neg hf, List.singleton_append]
          exact replCRLF_cons_eq '\n' _ (Or.inl (by decide))
      rw [hend, replCR_append, replCR_no_cr _ hnr]
      have hcr : replCR ('\n' :: replCRLF (rest.foldr
          (fun pr acc =>
            pr.1 ++ pr.2.1 ++ (if pr.2.2 then ['\r', '\n'] else ['\n']) ++ acc)
          [])) =
          '\n' :: replCR (replCRLF (rest.foldr
            (fun pr acc =>
              pr.1 ++ pr.2.1 ++ (if pr.2.2 then ['\r', '\n'] else ['\n']) ++ acc)
            [])) := by
        simp [replCR]
      rw [hcr, splitNL_no_nl_append _ _ hnn,
        ih (fun q hq => hc q (List.mem_cons_of_mem pr hq))
          (fun q hq => hp q (List.mem_cons_of_mem pr hq))]
      simp

theorem normalize_build (ps : List (List Char × List Char × Bool))
    (hc : ∀ pr ∈ ps, ∀ ch ∈ pr.1, ch ≠ '\r' ∧ ch ≠ '\n')
    (hp : ∀ pr ∈ ps, ∀ ch ∈ pr.2.1, ch = ' ' ∨ ch = '\t') :
    normalize_text_for_hash (String.mk (ps.foldr
        (fun pr acc =>
          pr.1 ++ pr.2.1 ++ (if pr.2.2 then ['\r', '\n'] else ['\n']) ++ acc)
        [])) =
      normalize_text_for_hash
        (String.mk (List.intercalate ['\n'] (ps.map fun pr => pr.1))) := by
  by_cases hps : ps = []
  · subst hps; rfl
  ·   simp only [normalize_text_for_hash]
      have htl : ∀ l : List Char, (String.mk l).toList = l := fun l => rfl
      rw [htl, htl]
      simp only [normLines]
      rw [splitNL_build ps hc hp]
      have hmap : ((ps.map fun pr : List Char × List Char × Bool =>
          pr.1 ++ pr.2.1) ++ [[]]).map rstripL =
          (ps.map fun pr => rstripL pr.1) ++ [[]] := by
        rw [List.map_append, List.map_map]
        have hcong : (ps.map (rstripL ∘ fun pr : List Char × List Char × Bool =>
            pr.1 ++ pr.2.1)) = ps.map fun pr => rstripL pr.1 := by
          apply List.map_congr_left
          intro q hq
          simp only [Function.comp]
          exact rstripL_append_ws q.1 q.2.1
            (fun ch hch => by
              rcases hp q hq ch hch with h | h <;> subst h <;> decide)
        rw [hcong]
        rfl
      rw [hmap]
      have hrhs : splitNL (replCR (replCRLF
          (List.intercalate ['\n'] (ps.map fun pr => pr.1)))) =
          ps.map fun pr => pr.1 := by
        have hnocr : '\r' ∉ List.intercalate ['\n'] (ps.map fun pr => pr.1) := by
          apply no_cr_intercalate
          intro l hl
          obtain ⟨q, hq, hql⟩ := List.mem_map.mp hl
          intro hm
          exact (hc q hq '\r' (hql ▸ hm)).1 rfl
        rw [replCRLF_no_cr _ hnocr, replCR_no_cr _ hnocr]
        apply splitNL_join_lines
        · intro l hl
          obtain ⟨q, hq, hql⟩ := List.mem_map.mp hl
          intro hm
          exact (hc q hq '\n' (hql ▸ hm)).2 rfl
        · simpa using hps
      rw [hrhs, List.map_map]
      have hcong2 : (ps.map (rstripL ∘ fun pr : List Char × List Char × Bool =>
          pr.1)) = ps.map fun pr => rstripL pr.1 := by
        apply List.map_congr_left
        intro q hq
        rfl
      rw [hcong2]
      exact congrArg (fun zs => String.mk (List.intercalate ['\n'] zs))
        (trim_append_blank _)

theorem cnw_append (a b : List Char) : cnw (a ++ b) = cnw a + cnw b := by
  simp [cnw]

theorem cnw_reverse (l : List Char) : cnw l.reverse = cnw l := by
  simp [cnw]

theorem cnw_cons (c : Char) (l : List Char) :
    cnw (c :: l) = (if pyWS c then 0 else 1) + cnw l := by
  by_cases hc : pyWS c <;> simp [cnw, List.filter_cons, hc]
  omega

theorem cnw_replCRLF (s : List Char) : cnw (replCRLF s) = cnw s := by
  induction s using replCRLF.induct with
  | case1 => rfl
  | case2 rest ih =>
      rw [replCRLF.eq_2, cnw_cons, cnw_cons, cnw_cons, ih]
      have h1 : pyWS '\n' = true := by decide
      have h2 : pyWS '\r' = true := by decide
      rw [h1, h2]
      simp
  | case3 c rest hsh ih =>
      rw [replCRLF.eq_3 c rest hsh, cnw_cons, cnw_cons, ih]

theorem cnw_replCR (s : List Char) : cnw (replCR s) = cnw s := by
  induction s with
  | nil => rfl
  | cons c rest ih =>
      simp only [replCR, List.map_cons]
      rw [show (List.map (fun c => if c = '\r' then '\n' else c) rest) = replCR rest
        from rfl]
      by_cases hc : c = '\r'
      · subst hc
        rw [if_pos rfl, cnw_cons, cnw_cons, ih]
        have h1 : pyWS '\n' = true := by decide
        have h2 : pyWS '\r' = true := by decide
        rw [h1, h2]
      · rw [if_neg hc, cnw_cons, cnw_cons, ih]

theorem cnw_dropWhile_ws (l : List Char) :
    cnw (List.dropWhile pyWS l) = cnw l := by
  induction l with
  | nil => rfl
  | cons c rest ih =>
      by_cases hc : pyWS c
      · rw [List.dropWhile_cons_of_pos hc, ih, cnw_cons, if_pos hc]
        simp
      · rw [List.dropWhile_cons_of_neg hc]

theorem cnw_rstripL (l : List Char) : cnw (rstripL l) = cnw l := by
  rw [rstripL, cnw_reverse, cnw_dropWhile_ws, cnw_reverse]

theorem cnw_pyStripL (l : List Char) : cnw (pyStripL l) = cnw l := by
  rw [pyStripL, cnw_reverse, cnw_dropWhile_ws, cnw_reverse, cnw_dropWhile_ws]

theorem blank_cnw (l : List Char) (h : blankL l = true) : cnw l = 0 := by
  have hs : pyStripL l = [] := by simpa [blankL] using h
  have := cnw_pyStripL l
  rw [hs] at this
  simpa [cnw] using this.symm

theorem cnw_splitNL (x : List Char) :
    ((splitNL x).map cnw).sum = cnw x := by
  induction x with
  | nil => simp [splitNL, cnw]
  | cons c rest ih =>
      by_cases hc : c = '\n'
      · subst hc
        have hstep : splitNL ('\n' :: rest) = [] :: splitNL rest := rfl
        rw [hstep, List.map_cons, List.sum_cons, ih, cnw_cons]
        have h1 : pyWS '\n' = true := by decide
        rw [h1]
        simp [cnw]
      · obtain ⟨l, ls, h⟩ : ∃ l ls, splitNL rest = l :: ls := by
          cases h : splitNL rest with
          | nil => exact absurd h (splitNL_ne_nil rest)
          | cons a b => exact ⟨a, b, rfl⟩
        rw [splitNL_cons_cons c rest l ls hc h, List.map_cons, List.sum_cons,
          cnw_cons]
        rw [h, List.map_cons, List.sum_cons] at ih
        rw [cnw_cons]
        omega

theorem cnw_intercalate_nl (ls : List (List Char)) :
    cnw (List.intercalate ['\n'] ls) = (ls.map cnw).sum := by
  induction ls with
  | nil => simp [List.intercalate, cnw]
  | cons l rest ih =>
      cases rest with
      | nil =>
          have h1 : List.intercalate ['\n'] [l] = l := by
            simp [List.intercalate]
          rw [h1]
          simp
      | cons l2 r2 =>
          rw [intercalate_nl_cons_cons]
          rw [cnw_append, List.map_cons, List.sum_cons, cnw_cons, ih]
          have h1 : pyWS '\n' = true := by decide
          rw [h1]
          simp

theorem cnw_sum_dropWhile_blank (zs : List (List Char)) :
    ((zs.dropWhile blankL).map cnw).sum = (zs.map cnw).sum := by
  induction zs with
  | nil => rfl
  | cons l rest ih =>
      by_cases hl : blankL l
      · rw [List.dropWhile_cons_of_pos hl, ih, List.map_cons, List.sum_cons,
          blank_cnw l hl]
        simp
      · rw [List.dropWhile_cons_of_neg hl]

theorem cnw_sum_reverse (zs : List (List Char)) :
    ((zs.reverse).map cnw).sum = (zs.map cnw).sum := by
  rw [List.map_reverse, List.sum_reverse]

theorem cnw_normalize (s : String) :
    cnw (normalize_text_for_hash s).toList = cnw s.toList := by
  have htl : ∀ l : List Char, (String.mk l).toList = l := fun l => rfl
  rw [normalize_text_for_hash, htl, cnw_intercalate_nl, normLines,
    cnw_sum_reverse, cnw_sum_dropWhile_blank, cnw_sum_reverse,
    cnw_sum_dropWhile_blank, List.map_map]
  have hcong : ((splitNL (replCR (replCRLF s.toList))).map (cnw ∘ rstripL)) =
      (splitNL (replCR (replCRLF s.toList))).map cnw := by
    apply List.map_congr_left
    intro l hl
    exact cnw_rstripL l
  rw [hcong, cnw_splitNL, cnw_replCR, cnw_replCRLF]

theorem cnw_shaPayload (p c t : String) :
    cnw (shaPayload p c t).toList =
      cnw p.toList + cnw c.toList + cnw t.toList + 6 := by
  have hred : shaPayload p c t =
      normalize_text_for_hash p ++ "\n\n---\n\n" ++ normalize_text_for_hash c ++
        "\n\n---\n\n" ++ normalize_text_for_hash t := rfl
  have htoList : ∀ a b : String, (a ++ b).toList = a.toList ++ b.toList := by
    intro a b
    simp [String.toList]
  rw [hred, htoList, htoList, htoList, htoList, cnw_append, cnw_append,
    cnw_append, cnw_append, cnw_normalize, cnw_normalize, cnw_normalize]
  have hsep : cnw ("\n\n---\n\n" : String).toList = 3 := by decide
  rw [hsep]
  omega

theorem shaPayload_snoc_x (p c t : String) :
    shaPayload p c (String.mk (t.toList ++ ['x'])) ≠ shaPayload p c t := by
  intro h
  have hcnt := congrArg (fun s => cnw s.toList) h
  simp only [cnw_shaPayload] at hcnt
  have htl : (String.mk (t.toList ++ ['x'])).toList = t.toList ++ ['x'] := rfl
  rw [htl, cnw_append] at hcnt
  have hx : cnw ['x'] = 1 := by decide
  rw [hx] at hcnt
  omega

/-- C3: fingerprint stability and sensitivity — appending `"\n\n"` to any
of the three section texts leaves the fingerprint unchanged; two texts
that differ only by `\r\n`-vs-`\n` line endings and trailing
spaces/tabs per line (same line contents) produce identical fingerprints;
and appending `"x"` to a text always changes the hashed payload, with a
concrete instance where the resulting digests differ. -/
theorem fingerprint_stability :
    (∀ p c t : String,
        docs_fingerprint p c (String.mk (t.toList ++ ['\n', '\n'])) =
            docs_fingerprint p c t ∧
        docs_fingerprint p (String.mk (c.toList ++ ['\n', '\n'])) t =
            docs_fingerprint p c t ∧
        docs_fingerprint (String.mk (p.toList ++ ['\n', '\n'])) c t =
            docs_fingerprint p c t) ∧
    (∀ ps1 ps2 : List (List Char × List Char × Bool),
        (∀ pr ∈ ps1, ∀ ch ∈ pr.1, ch ≠ '\r' ∧ ch ≠ '\n') →
        (∀ pr ∈ ps1, ∀ ch ∈ pr.2.1, ch = ' ' ∨ ch = '\t') →
        (∀ pr ∈ ps2, ∀ ch ∈ pr.1, ch ≠ '\r' ∧ ch ≠ '\n') →
        (∀ pr ∈ ps2, ∀ ch ∈ pr.2.1, ch = ' ' ∨ ch = '\t') →
        ps1.map (fun pr => pr.1) = ps2.map (fun pr => pr.1) →
        ∀ p c : String,
          docs_fingerprint p c (String.mk (ps1.foldr
              (fun pr acc => pr.1 ++ pr.2.1 ++
                (if pr.2.2 then ['\r', '\n'] else ['\n']) ++ acc) [])) =
            docs_fingerprint p c (String.mk (ps2.foldr
              (fun pr acc => pr.1 ++ pr.2.1 ++
                (if pr.2.2 then ['\r', '\n'] else ['\n']) ++ acc) []))) ∧
    (∀ p c t : String,
        shaPayload p c (String.mk (t.toList ++ ['x'])) ≠ shaPayload p c t) ∧
    docs_fingerprint "" "" "abc" ≠ docs_fingerprint "" "" "abcx" := by
  refine ⟨?_, ?_, shaPayload_snoc_x, ?_⟩
  · intro p c t
    refine ⟨?_, ?_, ?_⟩ <;>
      simp only [docs_fingerprint, shaPayload, normalize_snoc_two_nl]
  · intro ps1 ps2 h1c h1p h2c h2p heq p c
    have e1 := normalize_build ps1 h1c h1p
    have e2 := normalize_build ps2 h2c h2p
    rw [heq] at e1
    simp only [docs_fingerprint, shaPayload, e1, e2]
  · decide

/-- Witness applying the fingerprint theorem at concrete texts: a
trailing-blank-line variant and a CRLF-plus-trailing-space variant hash
identically. -/
theorem fingerprint_stability_witness :
    docs_fingerprint "" "" (String.mk ("hola".toList ++ ['\n', '\n'])) =
        docs_fingerprint "" "" "hola" ∧
    docs_fingerprint "" "" (String.mk ([(['h', 'i'], [' '], true)].foldr
        (fun pr acc => pr.1 ++ pr.2.1 ++
          (if pr.2.2 then ['\r', '\n'] else ['\n']) ++ acc) [])) =
      docs_fingerprint "" "" (String.mk ([(['h', 'i'], [], false)].foldr
        (fun pr acc => pr.1 ++ pr.2.1 ++
          (if pr.2.2 then ['\r', '\n'] else ['\n']) ++ acc) [])) :=
  ⟨(fingerprint_stability.1 "" "" "hola").1,
   fingerprint_stability.2.1 [(['h', 'i'], [' '], true)] [(['h', 'i'], [], false)]
     (by decide) (by decide) (by decide) (by decide) (by decide) "" ""⟩

end QMP
